import Mathlib

/-!
Verification development for the pydle-ircbot command framework.

Each section embeds a portion of the Python source (src/commands/__init__.py,
src/commands/commands.py, src/util.py) as executable Lean definitions and
proves or refutes the specification claims about it.  Strings are modelled as
`List Char` where character-level positions matter, numbers as `Int`/`Rat`,
Python sets as `Finset`, Python dicts (which preserve insertion order) as
association lists with unique keys.  A Python function that can `raise` is
modelled with `Except`.
-/

namespace IrcBot

/-!
## ArgumentList / Argument (src/commands/__init__.py lines 65-126)

`ArgumentList.__init__` runs `re.compile(r'\S+').finditer(text)` and makes an
`Argument(match.group(), text, match.start())` for every match: the maximal
runs of non-whitespace characters, each with its start offset in the original
line.  `Argument.eol` returns `self._text[self._start:]` (cached; in this pure
embedding caching is the identity, so "identical string on every access" is
definitional).  The whitespace class is abstracted as a predicate `ws`;
`pyIsSpace` is the ASCII fragment of Python's `\s`.
-/

/-- ASCII fragment of the Python regex class `\s`: space, tab, newline,
carriage return, vertical tab, form feed. -/
def pyIsSpace (c : Char) : Bool :=
  c == ' ' || c == '\t' || c == '\n' || c == '\r' || c == '\x0b' || c == '\x0c'

/-- The scan performed by `re.finditer(r'\S+', text)` (with `\S` abstracted as
`fun c => !ws c`), yielding `(match.start(), match.group())` pairs.  `pos` is
the absolute offset of the head of the remaining text. -/
def tokenize (ws : Char → Bool) : List Char → Nat → List (Nat × List Char)
  | [], _ => []
  | c :: rest, pos =>
    if ws c then tokenize ws rest (pos + 1)
    else
      let tok := rest.takeWhile (fun x => !ws x)
      (pos, c :: tok) :: tokenize ws (rest.dropWhile (fun x => !ws x)) (pos + 1 + tok.length)
  termination_by l _ => l.length
  decreasing_by
    all_goals simp only [List.length_cons]
    · exact Nat.lt_succ_self _
    · exact Nat.lt_succ_of_le (List.dropWhile_sublist _).length_le

/-- `ArgumentList(text)`: the list of `(start, word)` tokens of the line
(src/commands/__init__.py lines 117-126). -/
def argumentList (ws : Char → Bool) (text : List Char) : List (Nat × List Char) :=
  tokenize ws text 0

/-- `Argument.eol` (src/commands/__init__.py lines 90-101):
`self._text[self._start:]`. -/
def argEol (text : List Char) (start : Nat) : List Char :=
  text.drop start

theorem tokenize_sum_lengths (ws : Char → Bool) :
    ∀ (text : List Char) (pos : Nat),
      ((tokenize ws text pos).map (fun t => t.2.length)).sum + text.countP ws =
        text.length
  | [], _ => by simp [tokenize]
  | c :: rest, pos => by
    rw [tokenize]
    by_cases h : ws c
    · have ih := tokenize_sum_lengths ws rest (pos + 1)
      rw [if_pos h, List.countP_cons_of_pos _ _ h, List.length_cons]
      omega
    · have hsplit : rest.takeWhile (fun x => !ws x) ++ rest.dropWhile (fun x => !ws x) =
          rest := List.takeWhile_append_dropWhile _ _
      have ih := tokenize_sum_lengths ws (rest.dropWhile (fun x => !ws x))
        (pos + 1 + (rest.takeWhile (fun x => !ws x)).length)
      have hcount : rest.countP ws =
          (rest.takeWhile (fun x => !ws x)).countP ws +
            (rest.dropWhile (fun x => !ws x)).countP ws := by
        conv_lhs => rw [← hsplit]
        rw [List.countP_append]
      have htokws : (rest.takeWhile (fun x => !ws x)).countP ws = 0 := by
        apply List.countP_eq_zero.mpr
        intro a ha
        have := List.mem_takeWhile_imp ha
        simp only [Bool.not_eq_true'] at this
        simp [this]
      have hlen : rest.length =
          (rest.takeWhile (fun x => !ws x)).length +
            (rest.dropWhile (fun x => !ws x)).length := by
        conv_lhs => rw [← hsplit]
        rw [List.length_append]
      have hccount : (c :: rest).countP ws = rest.countP ws := by
        simp [List.countP_cons, h]
      rw [if_neg h]
      simp only [List.map_cons, List.sum_cons, List.length_cons, hccount]
      omega
  termination_by text _ => text.length
  decreasing_by
    all_goals simp only [List.length_cons]
    · exact Nat.lt_succ_self _
    · exact Nat.lt_succ_of_le (List.dropWhile_sublist _).length_le

theorem tokenize_tokens_nonempty_ws_free (ws : Char → Bool) :
    ∀ (text : List Char) (pos : Nat) (t : Nat × List Char),
      t ∈ tokenize ws text pos → t.2 ≠ [] ∧ ∀ c ∈ t.2, ws c = false
  | [], _, t => by simp [tokenize]
  | c :: rest, pos, t => by
    rw [tokenize]
    by_cases h : ws c
    · rw [if_pos h]
      exact tokenize_tokens_nonempty_ws_free ws rest (pos + 1) t
    · rw [if_neg h]
      intro hmem
      rcases List.mem_cons.mp hmem with heq | htail
      · subst heq
        refine ⟨by simp, ?_⟩
        intro a ha
        rcases List.mem_cons.mp ha with rfl | ha'
        · simpa using h
        · have := List.mem_takeWhile_imp ha'
          simpa using this
      · exact tokenize_tokens_nonempty_ws_free ws _ _ t htail
  termination_by text _ _ => text.length
  decreasing_by
    all_goals simp only [List.length_cons]
    · exact Nat.lt_succ_self _
    · exact Nat.lt_succ_of_le (List.dropWhile_sublist _).length_le

theorem tokenize_first_start (ws : Char → Bool) :
    ∀ (text : List Char) (pos start : Nat) (tok : List Char)
      (rest : List (Nat × List Char)),
      tokenize ws text pos = (start, tok) :: rest →
        start = pos + (text.takeWhile ws).length
  | [], _, _, _, _ => by simp [tokenize]
  | c :: rest, pos, start, tok, rest' => by
    rw [tokenize]
    by_cases h : ws c
    · rw [if_pos h]
      intro heq
      have := tokenize_first_start ws rest (pos + 1) start tok rest' heq
      rw [List.takeWhile_cons_of_pos h, List.length_cons]
      omega
    · rw [if_neg h]
      intro heq
      simp only [List.cons.injEq, Prod.mk.injEq] at heq
      rw [List.takeWhile_cons_of_neg (by simpa using h)]
      simp [← heq.1.1]
  termination_by text _ _ _ _ => text.length
  decreasing_by
    simp only [List.length_cons]
    exact Nat.lt_succ_self _

theorem drop_length_takeWhile (p : Char → Bool) :
    ∀ (l : List Char), l.drop ((l.takeWhile p).length) = l.dropWhile p
  | [] => rfl
  | c :: rest => by
    by_cases h : p c
    · rw [List.takeWhile_cons_of_pos h, List.dropWhile_cons_of_pos h,
        List.length_cons, List.drop_succ_cons]
      exact drop_length_takeWhile p rest
    · rw [List.takeWhile_cons_of_neg (by simpa using h),
        List.dropWhile_cons_of_neg (by simpa using h)]
      rfl

/-- C9: for every input line, `ArgumentList(line)` produces the maximal
non-whitespace runs (each token nonempty and whitespace-free, and
`sum of token lengths + number of whitespace characters = len(line)`), an
empty line yields an empty list, and the first token's `Argument.eol` equals
the original line from its first non-whitespace character to the end.
(`eol` is a pure function of `(text, start)` here, so it trivially returns the
identical string on every access.) -/
theorem argumentList_spec (ws : Char → Bool) (text : List Char) :
    (((argumentList ws text).map (fun t => t.2.length)).sum + text.countP ws =
        text.length) ∧
    (argumentList ws ([] : List Char) = []) ∧
    (∀ t ∈ argumentList ws text, t.2 ≠ [] ∧ ∀ c ∈ t.2, ws c = false) ∧
    (∀ start tok rest, argumentList ws text = (start, tok) :: rest →
      argEol text start = text.dropWhile ws) := by
  refine ⟨tokenize_sum_lengths ws text 0, by simp [argumentList, tokenize],
    fun t ht => tokenize_tokens_nonempty_ws_free ws text 0 t ht, ?_⟩
  intro start tok rest heq
  have hs := tokenize_first_start ws text 0 start tok rest heq
  simp only [Nat.zero_add] at hs
  rw [argEol, hs]
  exact drop_length_takeWhile ws text

/-- Witness for C9 at the concrete line `" ab  cd"`. -/
theorem argumentList_spec_witness :
    argumentList pyIsSpace (' ' :: 'a' :: 'b' :: ' ' :: ' ' :: 'c' :: 'd' :: []) =
        [(1, ['a', 'b']), (5, ['c', 'd'])] ∧
    argEol (' ' :: 'a' :: 'b' :: ' ' :: ' ' :: 'c' :: 'd' :: []) 1 =
        ['a', 'b', ' ', ' ', 'c', 'd'] := by
  have heval : argumentList pyIsSpace
      (' ' :: 'a' :: 'b' :: ' ' :: ' ' :: 'c' :: 'd' :: []) =
        [(1, ['a', 'b']), (5, ['c', 'd'])] := by
    simp [argumentList, tokenize, pyIsSpace, List.takeWhile, List.dropWhile]
  have h := argumentList_spec pyIsSpace
    (' ' :: 'a' :: 'b' :: ' ' :: ' ' :: 'c' :: 'd' :: [])
  refine ⟨heval, ?_⟩
  have := h.2.2.2 1 ['a', 'b'] [(5, ['c', 'd'])] heval
  rw [this]
  simp [List.dropWhile, pyIsSpace]

/-!
## ParamType handlers (src/commands/__init__.py lines 755-915)

`ParamType.parse` (lines 788-796) returns its input unchanged;
`ConstParamType` (lines 832-856) keeps `set(re.compile('[/|]').split(param.options.lower()))`
and `validate` raises a `UsageError` whose message lists the allowed values
when the *raw* token is not a member; `NumberParamType` (lines 859-914)
parses inclusive `min..max` bounds from `options` at construction and checks
them in `parse`.  Python runtime values handed to the bound handler are
modelled by `PyVal`.
-/

/-- A Python value as it reaches the handler's keyword arguments. -/
inductive PyVal
  | pstr (s : String)
  | pint (i : Int)
  | pnone
  deriving DecidableEq, Repr

/-- `re.split` on a single-character class: a separator character starts a
new piece, so `"add|delete"` becomes `["add", "delete"]`. -/
def splitChars (p : Char → Bool) : List Char → List (List Char)
  | [] => [[]]
  | c :: rest =>
    if p c then [] :: splitChars p rest
    else
      match splitChars p rest with
      | [] => [[c]]
      | piece :: more => (c :: piece) :: more

/-- `re.compile('[/|]').split(param.options.lower())` — the allowed constant
words (ConstParamType.__init__, lines 836-848; Python stores them in a `set`,
for which only membership and the rendered value list matter). -/
def constValues (options : List Char) : List (List Char) :=
  splitChars (fun c => c == '/' || c == '|') (options.map Char.toLower)

/-- `ConstParamType.validate` (lines 850-856): raises
`UsageError("{name} must be one of ({values})")` (or `"... must equal ..."`
for a single value) when the raw token `value` is not a member of the
lowercased value set.  The error is modelled as the pair
`(param.name, values)` that the message is formatted from.  Note the token is
compared *as is*: it is never lowercased. -/
def constValidate (name : String) (options : List Char) (value : List Char) :
    Except (String × List (List Char)) Unit :=
  if value ∈ constValues options then Except.ok ()
  else Except.error (name, constValues options)

/-- `ParamType.parse` (lines 788-796), inherited by `ConstParamType`: returns
the incoming value unchanged. -/
def constParse (value : List Char) : List Char := value

/-- C1 fails on the code: constant matching is case-*sensitive* in effect.
`ConstParamType.validate` compares the raw token against the lowercased
allowed values, so the token `"ADD"` raises a UsageError (naming `add` and
`delete`) instead of reaching the handler, and `ConstParamType` inherits the
identity `parse`, so even an accepted token is never lowercased.  The token
`"remove"` does raise a UsageError listing `add, delete` as the claim says,
and the exact lowercase token `"add"` is accepted and passed through
verbatim. -/
theorem constParam_case_sensitive_bug :
    constValidate "action" "add|delete".data "ADD".data =
        Except.error ("action", ["add".data, "delete".data]) ∧
    constValidate "action" "add|delete".data "remove".data =
        Except.error ("action", ["add".data, "delete".data]) ∧
    constValidate "action" "add|delete".data "add".data = Except.ok () ∧
    constParse "Add".data = "Add".data := by
  refine ⟨rfl, rfl, rfl, rfl⟩

/-- Helper for `pyPartition`: split at the first occurrence of `sep`,
`none` when `sep` never occurs. -/
def pyPartitionAux (sep : List Char) : List Char → Option (List Char × List Char)
  | [] => none
  | c :: rest =>
    if sep.isPrefixOf (c :: rest) then some ([], (c :: rest).drop sep.length)
    else
      match pyPartitionAux sep rest with
      | none => none
      | some r => some (c :: r.1, r.2)

/-- Python `str.partition(sep)`, keeping the pieces before and after the
first occurrence of `sep` (`(s, "")` when `sep` does not occur). -/
def pyPartition (s sep : List Char) : List Char × List Char :=
  match pyPartitionAux sep s with
  | none => (s, [])
  | some r => r

/-- Value of an unsigned decimal digit string (`none` if empty or any
character is not a digit). -/
def digitsToNat : List Char → Option Nat
  | [] => none
  | ds =>
    if ds.all Char.isDigit then
      some (ds.foldl (fun a c => a * 10 + (c.toNat - '0'.toNat)) 0)
    else none

/-- Python `int(string)` on an optionally signed decimal literal with
surrounding whitespace stripped (`none` models `ValueError`; digit
separators and non-ASCII digits are outside the fragment the claims use). -/
def pyInt (s : List Char) : Option Int :=
  match ((s.dropWhile pyIsSpace).reverse.dropWhile pyIsSpace).reverse with
  | '-' :: ds => (digitsToNat ds).map (fun n => -(n : Int))
  | '+' :: ds => (digitsToNat ds).map (fun n => (n : Int))
  | ds => (digitsToNat ds).map (fun n => (n : Int))

/-- Errors raised by `NumberParamType` for `:int`; each constructor records
the data its Python message is formatted from
(`"{name} must be an integer"`, `"... must be >= {minvalue}"`,
`"... must be between {minvalue} and {maxvalue}"`, and the `value > maxvalue`
branch, whose message interpolates `minvalue` — another slip, irrelevant
here). -/
inductive NumErr
  | notAnInteger (name : String)
  | belowMin (name : String) (minv : Int) (maxv : Option Int)
  | aboveMax (name : String) (minvShown : Option Int)
  deriving DecidableEq, Repr

/-- `coerce(bound) if bound else None` with the `ParseError` message label
for one end of a `min..max` range (`NumberParamType.__init__`). -/
def coerceBound (lbl : String) (s : List Char) : Except String (Option Int) :=
  if s = [] then Except.ok none
  else
    match pyInt s with
    | some v => Except.ok (some v)
    | none => Except.error lbl

/-- `NumberParamType.__init__` for `coerce=int` (lines 862-890): partition
`options` on `".."`, coerce each non-empty side, `ParseError` on a
non-coercible bound or when `minvalue > maxvalue`. -/
def numberInit (options : List Char) : Except String (Option Int × Option Int) := do
  let p := pyPartition options "..".data
  let minv ← coerceBound "Unable to coerce minval" p.1
  let maxv ← coerceBound "Unable to coerce maxval" p.2
  match minv, maxv with
  | some a, some b =>
    if a > b then Except.error "minval > maxval" else Except.ok (minv, maxv)
  | _, _ => Except.ok (minv, maxv)

/-- The second bounds check of `NumberParamType.parse`
(`if self.maxvalue is not None and value > self.maxvalue`), followed by
falling off the end of the function. -/
def numberCheckMax (name : String) (minv maxv : Option Int) (v : Int) :
    Except NumErr PyVal :=
  match maxv with
  | some m =>
    if v > m then Except.error (NumErr.aboveMax name minv) else Except.ok PyVal.pnone
  | none => Except.ok PyVal.pnone

/-- `NumberParamType.parse` (lines 892-914) for `coerce=int`: coerce the
token, raise on a bound violation — and then fall off the end of the
function.  The source has no `return` statement, so on success Python
returns `None` (`PyVal.pnone`), not the coerced number. -/
def numberParse (name : String) (minv maxv : Option Int) (value : List Char) :
    Except NumErr PyVal :=
  match pyInt value with
  | none => Except.error (NumErr.notAnInteger name)
  | some v =>
    match minv with
    | some m =>
      if v < m then Except.error (NumErr.belowMin name m maxv)
      else numberCheckMax name minv maxv v
    | none => numberCheckMax name minv maxv v

/-- `Parameter.bind` (lines 722-752) specialised to a single-word
(listmode `LIST_NONE`, non-eol) parameter: `values = [parse(token)]`, then
`kwargs[self.arg] = values[0]` when the parameter has an argument name.
Assigning a fresh key into the Python kwargs dict is modelled as appending
the pair. -/
def paramBindSingle (arg : Option String) (parseResult : Except NumErr PyVal)
    (kwargs : List (String × PyVal)) : Except NumErr (List (String × PyVal)) :=
  match parseResult with
  | Except.error e => Except.error e
  | Except.ok v =>
    match arg with
    | none => Except.ok kwargs
    | some a => Except.ok (kwargs ++ [(a, v)])

/-- C2 fails on the code: for the binding `"<n:int:1..10>"` and the in-range
token `"5"`, the bounds compile to `(1, 10)` and parsing succeeds, but
`NumberParamType.parse` falls off the end without returning the coerced
value, so `Parameter.bind` assembles `n = None` — the handler never receives
the integer `5`. -/
theorem intParam_returns_none_bug :
    numberInit "1..10".data = Except.ok (some 1, some 10) ∧
    numberParse "n" (some 1) (some 10) "5".data = Except.ok PyVal.pnone ∧
    paramBindSingle (some "n") (numberParse "n" (some 1) (some 10) "5".data) [] =
        Except.ok [("n", PyVal.pnone)] ∧
    PyVal.pnone ≠ PyVal.pint 5 := by
  refine ⟨rfl, rfl, rfl, by decide⟩

/-!
## Binding compilation (src/commands/__init__.py lines 433-570)

`Binding.__init__` iterates over `_paramstring_re.finditer(paramstring)`; each
match is an option chunk (`/...`), a variable chunk (`<count?arg:type:options?help>`)
or a constant chunk.  The model starts from the matched chunks (the regex
groups `var_count`/`var_arg`/`var_type`/`var_options`/`var_name`,
`const_count`/`const_arg`/`const_options`/`const_name`, `options`) and embeds
the per-chunk compilation loop.  The cosmetic `[`/`]` brackets and the
rendered usage text affect only help output and are not modelled.  Of the
type registry the model covers `str`, `line`, `const` and `int`; the `float`
entry differs from `int` only in the bound-coercion function and is exercised
by no claim.
-/

/-- One match of `_paramstring_re` (lines 387-426), by named group. -/
inductive Chunk
  | opts (chars : List Char)
  | var (count : Option Char) (arg : List Char) (typ : Option (List Char))
      (opt : Option (List Char)) (helpname : Option (List Char))
  | const (count : Option Char) (arg : Option (List Char)) (options : List Char)
      (helpname : Option (List Char))
  deriving DecidableEq, Repr

/-- Compile-time failures of `Binding.__init__`: `ParseError`, the dict
`KeyError` from an unregistered type tag, and the `AttributeError` from
`None.partition` when a numeric type has no `options` string. -/
inductive CompileErr
  | parseError (msg : String)
  | keyError (typ : List Char)
  | attributeError
  deriving DecidableEq, Repr

/-- `Binding.FIRST_ARG` / `Binding.LAST_ARG` / a `b=kwarg` name. -/
inductive BindingArg
  | firstArg
  | lastArg
  | kwarg (name : List Char)
  deriving DecidableEq, Repr

/-- `Parameter.LIST_NONE` / `LIST_NORMAL` / `LIST_VARARGS` (lines 650-652). -/
inductive ListMode
  | listNone
  | listNormal
  | listVarargs
  deriving DecidableEq, Repr

/-- The fields `inspect.signature(function)` contributes: the named
parameters, the `*args` name and the `**kwargs` name (lines 452-460). -/
structure PySignature where
  params : List (List Char)
  varargsVar : Option (List Char)
  kwargsVar : Option (List Char)
  deriving DecidableEq, Repr

/-- One compiled `Parameter` (lines 654-683), with the `eol` flag its
`ParamType` instance reports. -/
structure BParam where
  index : Nat
  arg : Option (List Char)
  typ : List Char
  options : Option (List Char)
  name : Option (List Char)
  listmode : ListMode
  required : Bool
  eol : Bool
  deriving DecidableEq, Repr

/-- Mutable state of the compilation loop.  `wasRequired` is the local
`was_required` flag: line 477 initialises it to `True` and — notably — no
statement in the loop body ever assigns it again. -/
structure CompileState where
  params : List BParam
  argNames : List (List Char)
  eol : Bool
  wasRequired : Bool
  defaultError : Bool
  bindingArg : Option BindingArg
  deriving DecidableEq, Repr

/-- The option-character loop (lines 480-493).  After handling `b=`, the loop
`continue`s with the *next index*, which is the `=` character itself, so that
iteration raises "Unrecognized option" — modelled faithfully by recursing on
the unconsumed tail. -/
def applyOptionChars (st : CompileState) : List Char → Except CompileErr CompileState
  | [] => Except.ok st
  | ch :: rest =>
    if ch = 'u' then applyOptionChars { st with defaultError := true } rest
    else if ch = 'b' ∨ ch = 'B' then
      match rest with
      | '=' :: kw =>
        if kw = [] then Except.error (CompileErr.parseError "= must specify a kwarg")
        else
          -- `self.binding_arg = options[ix+2:]` is assigned, but the loop then
          -- continues at the '=' character itself, which matches no option
          -- letter and raises "Unrecognized option" on the very next
          -- iteration, discarding the binding — inlined here.
          Except.error (CompileErr.parseError "Unrecognized option")
      | _ =>
        let ba := if ch = 'b' then BindingArg.firstArg else BindingArg.lastArg
        applyOptionChars { st with bindingArg := some ba } rest
    else Except.error (CompileErr.parseError "Unrecognized option")

/-- Construction of the `ParamType` instance for a parameter
(`Parameter.__init__` lines 681-683 plus the registered classes): returns the
parser's `eol` flag.  `str` accepts anything; `line` is `str` with
`eol=True`; `const` splits its options (the emptiness `ParseError` check at
line 848 is kept although `re.split` never returns an empty list); `int`
parses `min..max` bounds, `ParseError` on bad bounds, `AttributeError` when
`options` is `None`. -/
def paramTypeInit (typ : List Char) (options : Option (List Char)) :
    Except CompileErr Bool :=
  if typ = "str".data then Except.ok false
  else if typ = "line".data then Except.ok true
  else if typ = "const".data then
    match options with
    | some o =>
      if constValues o = [] then
        Except.error (CompileErr.parseError "Must have at least one constant value.")
      else Except.ok false
    | none => Except.error CompileErr.attributeError
  else if typ = "int".data then
    match options with
    | some o =>
      match numberInit o with
      | Except.error e => Except.error (CompileErr.parseError e)
      | Except.ok _ => Except.ok false
    | none => Except.error CompileErr.attributeError
  else Except.error (CompileErr.keyError typ)

/-- The body of the compilation loop (lines 496-568) for one chunk at
enumeration index `index` (option chunks also consume an index, as
`enumerate` numbers every regex match). -/
def compileChunk (sig : PySignature) (index : Nat) (st : CompileState) :
    Chunk → Except CompileErr CompileState
  | Chunk.opts chars => applyOptionChars st chars
  | ch => do
    -- line 496: a parameter after an eol-consuming one
    if st.eol then
      throw (CompileErr.parseError
        "Previous parameter consumes remainder of line, cannot have additional parameters.")
    -- lines 522-525: extract the groups (`or None` turns '' into None)
    let argRaw : Option (List Char) :=
      match ch with
      | Chunk.var _ a _ _ _ => if a = [] then none else some a
      | Chunk.const _ a _ _ => match a with | some x => if x = [] then none else some x | none => none
      | Chunk.opts _ => none
    let options : Option (List Char) :=
      match ch with
      | Chunk.var _ _ _ o _ => o
      | Chunk.const _ _ o _ => some o
      | Chunk.opts _ => none
    let helpname : Option (List Char) :=
      match ch with
      | Chunk.var _ _ _ _ h => h
      | Chunk.const _ _ _ h => h
      | Chunk.opts _ => none
    let count : Option Char :=
      match ch with
      | Chunk.var c _ _ _ _ => c
      | Chunk.const c _ _ _ => c
      | Chunk.opts _ => none
    -- lines 526-528: `required = True`, dead mandatory-after-optional check
    if true ∧ ¬ st.wasRequired then
      throw (CompileErr.parseError "Cannot have mandatory arguments after optional ones.")
    -- lines 530-535: type tag and help name
    let typ : List Char :=
      match ch with
      | Chunk.const _ _ _ _ => "const".data
      | Chunk.var _ _ t _ _ => (t.getD "str".data)
      | Chunk.opts _ => "str".data
    let name : Option (List Char) :=
      match ch with
      | Chunk.const _ _ o h => some (h.getD o)
      | _ => helpname <|> argRaw
    -- lines 537-541: count marker
    let listmode0 : ListMode :=
      match count with
      | some c => if c = '+' ∨ c = '*' then ListMode.listNormal else ListMode.listNone
      | none => ListMode.listNone
    let required : Bool :=
      match count with
      | none => true
      | some c => decide (¬ (c = '?' ∨ c = '*'))
    -- lines 543-561: argument-name checks against the signature
    let checked : Except CompileErr (ListMode × List (List Char)) :=
      match argRaw with
      | none => Except.ok (listmode0, st.argNames)
      | some a =>
        if a ∈ st.argNames then
          Except.error (CompileErr.parseError "Duplicate parameter name")
        else
          let lm := if some a = sig.varargsVar then ListMode.listVarargs else listmode0
          if some a = sig.kwargsVar then
            Except.error
              (CompileErr.parseError "Cannot directly reference a function's kwargs argument.")
          else if a ∉ sig.params ∧ sig.kwargsVar = none then
            Except.error (CompileErr.parseError "Bound function has no argument named")
          else Except.ok (lm, st.argNames ++ [a])
    let (listmode, argNames) ← checked
    -- lines 562-568: build the Parameter and its ParamType
    let peol ← paramTypeInit typ options
    let param : BParam :=
      { index := index, arg := argRaw, typ := typ, options := options,
        name := name, listmode := listmode, required := required, eol := peol }
    Except.ok
      { st with
        params := st.params ++ [param]
        argNames := argNames
        eol := (listmode ≠ ListMode.listNone) ∨ peol }

/-- The compilation loop over all regex matches, with `enumerate` index. -/
def compileChunks (sig : PySignature) :
    List Chunk → Nat → CompileState → Except CompileErr CompileState
  | [], _, st => Except.ok st
  | ch :: rest, index, st => do
    let st' ← compileChunk sig index st ch
    compileChunks sig rest (index + 1) st'

/-- `Binding.__init__` (lines 433-570) from the chunk list: initial state has
`eol=False`, `was_required=True`, no params. -/
def bindingInit (sig : PySignature) (chunks : List Chunk) :
    Except CompileErr CompileState :=
  compileChunks sig chunks 0
    { params := [], argNames := [], eol := false, wasRequired := true,
      defaultError := false, bindingArg := none }

/-- C4 fails on the code: `was_required` is initialised once (line 477) and
never reassigned, so the "Cannot have mandatory arguments after optional
ones." check (lines 526-528) can never fire.  Compiling the usage-string
`"<?a> <b>"` (an optional parameter followed by a required one) against a
handler `f(event, a=..., b)` silently produces a Binding whose first
parameter is optional and whose second is required — no ParseError is
raised. -/
theorem mandatoryAfterOptional_not_rejected :
    bindingInit
        { params := ["event".data, "a".data, "b".data], varargsVar := none,
          kwargsVar := none }
        [Chunk.var (some '?') "a".data none none none,
         Chunk.var none "b".data none none none] =
      Except.ok
        { params :=
            [{ index := 0, arg := some "a".data, typ := "str".data, options := none,
               name := some "a".data, listmode := ListMode.listNone,
               required := false, eol := false },
             { index := 1, arg := some "b".data, typ := "str".data, options := none,
               name := some "b".data, listmode := ListMode.listNone,
               required := true, eol := false }],
          argNames := ["a".data, "b".data], eol := false, wasRequired := true,
          defaultError := false, bindingArg := none } := by
  rfl

/-!
## Command dispatch (src/commands/__init__.py lines 1247-1274 and
src/commands/commands.py lines 298-325)

Both files define `Command.__call__`, which tries bindings in order.  The
version in `src/commands/__init__.py` catches `FinalUsageError` (the class)
and re-raises, skips `PrecheckError`, and retains other UsageErrors; the
refactored version in `src/commands/commands.py` re-raises any `UsageError`
whose `final` attribute is true, then skips `PrecheckError`.  A binding's run
is modelled by its outcome (`Except` of a UsageError or a returned value).
-/

/-- Which exception class a raised error is an instance of
(`UsageError`, `PrecheckError`, `FinalUsageError`; lines 205-256). -/
inductive UEKind
  | plain
  | precheck
  | finalUsage
  deriving DecidableEq, Repr

/-- A raised `UsageError`: its message, its `final` flag and its class.
(`FinalUsageError.__init__` defaults `final=True` but the flag is a separate
attribute.) -/
structure UE where
  message : Option String
  final : Bool
  kind : UEKind
  deriving DecidableEq, Repr

/-- What `Command.__call__` observes of one `Binding`: the outcome of calling
it on the event, the `/u` flag (`default_error` / `is_default_error`) and its
rendered usage text. -/
structure BindingSim where
  result : Except UE Nat
  defaultError : Bool
  usage : String
  deriving Repr

/-- Result of `Command.__call__`: a returned value, a propagating
`UsageError`, the `ValueError` for a binding-less command, or the
`AttributeError` from `error.message` when every binding raised
`PrecheckError` and no usage override is set. -/
inductive CallOutcome
  | ok (v : Nat)
  | usageError (e : UE)
  | valueError
  | attributeError
  deriving DecidableEq, Repr

/-- Python truthiness of an optional string (`None` and `""` are falsy). -/
def falsyStr (o : Option String) : Bool :=
  o = none ∨ o = some ""

/-- After the loop (lines 1270-1274 / 321-325, identical in both files):
raise the command-level `usage` override if truthy, else synthesize
`"Usage: {event.full_name} {error_binding.usage}"` when the retained error
has a falsy message, else re-raise the retained error.  `error.message` with
no retained error is an `AttributeError`. -/
def afterLoop (usage : Option String) (fullName : String)
    (acc : Option (UE × BindingSim)) : CallOutcome :=
  if ¬ falsyStr usage then
    CallOutcome.usageError { message := usage, final := false, kind := UEKind.plain }
  else
    match acc with
    | none => CallOutcome.attributeError
    | some (e, b) =>
      if falsyStr e.message then
        CallOutcome.usageError
          { message := some ("Usage: " ++ fullName ++ " " ++ b.usage),
            final := false, kind := UEKind.plain }
      else CallOutcome.usageError e

/-- The retained-error update (lines 1266-1269 / 318-320):
`if error is None or binding.default_error: error, error_binding = ex, binding`. -/
def retainError (acc : Option (UE × BindingSim)) (e : UE) (b : BindingSim) :
    Option (UE × BindingSim) :=
  match acc with
  | none => some (e, b)
  | some a => if b.defaultError then some (e, b) else some a

/-- The binding loop of `Command.__call__` in src/commands/__init__.py
(lines 1259-1269): `except FinalUsageError: raise` (by class),
`except PrecheckError: pass`, `except UsageError` retains. -/
def initCallLoop (usage : Option String) (fullName : String) :
    List BindingSim → Option (UE × BindingSim) → CallOutcome
  | [], acc => afterLoop usage fullName acc
  | b :: rest, acc =>
    match b.result with
    | Except.ok v => CallOutcome.ok v
    | Except.error e =>
      if e.kind = UEKind.finalUsage then CallOutcome.usageError e
      else if e.kind = UEKind.precheck then initCallLoop usage fullName rest acc
      else initCallLoop usage fullName rest (retainError acc e b)

/-- `Command.__call__` from src/commands/__init__.py (lines 1247-1274). -/
def commandCall (usage : Option String) (fullName : String)
    (bindings : List BindingSim) : CallOutcome :=
  match bindings with
  | [] => CallOutcome.valueError
  | bs => initCallLoop usage fullName bs none

/-- The binding loop of `Command.__call__` in src/commands/commands.py
(lines 310-320): `except UsageError as ex: if ex.final: raise;
if isinstance(ex, PrecheckError): continue`, else retain. -/
def commandsCallLoop (usage : Option String) (fullName : String) :
    List BindingSim → Option (UE × BindingSim) → CallOutcome
  | [], acc => afterLoop usage fullName acc
  | b :: rest, acc =>
    match b.result with
    | Except.ok v => CallOutcome.ok v
    | Except.error e =>
      if e.final then CallOutcome.usageError e
      else if e.kind = UEKind.precheck then commandsCallLoop usage fullName rest acc
      else commandsCallLoop usage fullName rest (retainError acc e b)

/-- `Command.__call__` from src/commands/commands.py (lines 298-325). -/
def commandsCall (usage : Option String) (fullName : String)
    (bindings : List BindingSim) : CallOutcome :=
  match bindings with
  | [] => CallOutcome.valueError
  | bs => commandsCallLoop usage fullName bs none

/-- C3 fails on the code in src/commands/__init__.py: a plain `UsageError`
raised with `final=True` does *not* abort its `Command.__call__` loop — a
later binding that succeeds is still tried and its value returned, although
`UsageError.__init__` documents `final` as "no other command bindings will be
attempted".  A `FinalUsageError` instance does abort there, and the
refactored loop in src/commands/commands.py aborts on the `final` flag as
the claim states. -/
theorem finalFlag_not_short_circuiting_bug :
    commandCall none "!cmd"
        [{ result := Except.error
             { message := some "boom", final := true, kind := UEKind.plain },
           defaultError := false, usage := "u1" },
         { result := Except.ok 42, defaultError := false, usage := "u2" }] =
      CallOutcome.ok 42 ∧
    commandsCall none "!cmd"
        [{ result := Except.error
             { message := some "boom", final := true, kind := UEKind.plain },
           defaultError := false, usage := "u1" },
         { result := Except.ok 42, defaultError := false, usage := "u2" }] =
      CallOutcome.usageError
        { message := some "boom", final := true, kind := UEKind.plain } ∧
    commandCall none "!cmd"
        [{ result := Except.error
             { message := some "boom", final := true, kind := UEKind.finalUsage },
           defaultError := false, usage := "u1" },
         { result := Except.ok 42, defaultError := false, usage := "u2" }] =
      CallOutcome.usageError
        { message := some "boom", final := true, kind := UEKind.finalUsage } := by
  refine ⟨rfl, rfl, rfl⟩

/-!
## Throttle (src/util.py lines 57-271)

The token bucket: `free` units available, capacity `burst`, `amount` units
recovered every `rate` seconds.  Timestamps and quantities are modelled as
rationals (Python uses floats and timedeltas; the claims are about ordering
and clamping, which `min`/`-`/`/` satisfy identically).  The queue holds
`(cost, functools.partial(...))` pairs; thunks are named by an id.
`run()`'s sleeping, waking and `on_clear` reporting do not change the
modelled fields; the state changes are capacity recovery (lines 203-209) and
the flush loop (lines 212-231).
-/

/-- The mutable fields of a `Throttle`. -/
structure ThrottleState where
  burst : ℚ
  rate : ℚ
  amount : ℚ
  free : ℚ
  last : ℚ
  queue : List (ℚ × Nat)
  deriving DecidableEq, Repr

/-- `Throttle.__init__` (lines 79-112): validation (`rate >= 0`; `burst > 0`
and `amount > 0` only checked when `rate` is truthy), then `free = burst`,
`last = now()`, empty queue. -/
def throttleInit (now burst rate amount : ℚ) : Except String ThrottleState :=
  if rate < 0 then Except.error "rate cannot be < 0 seconds"
  else if rate ≠ 0 ∧ burst ≤ 0 then Except.error "burst must be > 0"
  else if rate ≠ 0 ∧ amount ≤ 0 then Except.error "amount must be > 0"
  else
    Except.ok
      { burst := burst, rate := rate, amount := amount, free := burst,
        last := now, queue := [] }

/-- Capacity recovery (lines 203-209): when `rate` is truthy and the bucket
is not full, recover `ticks * amount` clamped to `burst` and advance
`last`. -/
def recover (now : ℚ) (st : ThrottleState) : ThrottleState :=
  if st.rate ≠ 0 ∧ st.free < st.burst then
    let ticks := (now - st.last) / st.rate
    { st with free := min (st.free + ticks * st.amount) st.burst,
              last := st.last + st.rate * ticks }
  else st

/-- The flush loop (lines 212-231): while the queue is non-empty, look at the
head's cost; a completely full bucket resets `last` to `now` and executes the
head *unconditionally*; otherwise a head whose cost exceeds `free` makes the
loop sleep for the deficit and break (no state change beyond the sleep);
otherwise the head executes.  Executing pops the head and subtracts its cost
from `free`.  Returns the executed event ids in order and the final state. -/
def flushLoop (now : ℚ) (st : ThrottleState) : List Nat × ThrottleState :=
  match hq : st.queue with
  | [] => ([], st)
  | (cost, ev) :: rest =>
    if st.free ≥ st.burst then
      let r := flushLoop now { st with last := now, queue := rest, free := st.free - cost }
      (ev :: r.1, r.2)
    else if cost > st.free then
      ([], st)
    else
      let r := flushLoop now { st with queue := rest, free := st.free - cost }
      (ev :: r.1, r.2)
  termination_by st.queue.length
  decreasing_by
    all_goals simp [hq]

/-- One pass of `Throttle.run`'s main loop: capacity recovery followed by the
flush loop. -/
def runPass (now : ℚ) (st : ThrottleState) : List Nat × ThrottleState :=
  flushLoop now (recover now st)

/-- C7: in a pass whose bucket is full (`free >= burst`) and whose queue is
non-empty, the head item is dequeued and executed in that pass regardless of
its cost (the `free >= burst` branch at lines 214-216 bypasses the
`cost > free` wait entirely), so a full bucket never leaves the head waiting
for `free >= cost`. -/
theorem throttle_full_bucket_runs_head (now : ℚ) (st : ThrottleState)
    (cost : ℚ) (ev : Nat) (rest : List (ℚ × Nat))
    (hq : st.queue = (cost, ev) :: rest) (hfull : st.free ≥ st.burst) :
    ∃ evs st', runPass now st = (ev :: evs, st') := by
  have hrec : recover now st = st := by
    rw [recover, if_neg]
    rintro ⟨-, hlt⟩
    exact absurd hfull (not_le.mpr hlt)
  rw [runPass, hrec, flushLoop]
  split
  · rename_i hq'
    rw [hq] at hq'
    cases hq'
  · rename_i c e r hq'
    rw [hq] at hq'
    injection hq' with h1 h2
    injection h1 with hc he
    subst hc he h2
    rw [if_pos hfull]
    exact ⟨_, _, rfl⟩

/-- Concrete witness for C7: `burst=5`, `free=5` (full), a single queued item
of cost `10 > burst` — the pass still executes it. -/
theorem throttle_full_bucket_runs_head_witness :
    ∃ evs st',
      runPass 0
          { burst := 5, rate := 1, amount := 1, free := 5, last := 0,
            queue := [(10, 7)] } =
        (7 :: evs, st') :=
  throttle_full_bucket_runs_head 0
    { burst := 5, rate := 1, amount := 1, free := 5, last := 0,
      queue := [(10, 7)] }
    10 7 [] rfl (by norm_num)

/-- The state transitions a `Throttle` undergoes: `add`/`extend` append to
the queue (lines 131-168; costs are caller-supplied and unconstrained),
capacity recovery, and the two ways the flush loop executes the head item
(full bucket, lines 214-216+225-226, or affordable cost, lines 217+225-226).
Sleeps, wakes and `on_clear` do not change the modelled fields. -/
inductive ThrottleStep : ThrottleState → ThrottleState → Prop
  | add (st : ThrottleState) (cost : ℚ) (ev : Nat) :
      ThrottleStep st { st with queue := st.queue ++ [(cost, ev)] }
  | extendStep (st : ThrottleState) (items : List (ℚ × Nat)) :
      ThrottleStep st { st with queue := st.queue ++ items }
  | recoverStep (st : ThrottleState) (now : ℚ) :
      ThrottleStep st (recover now st)
  | execFull (st : ThrottleState) (now cost : ℚ) (ev : Nat)
      (rest : List (ℚ × Nat)) (hq : st.queue = (cost, ev) :: rest)
      (hfull : st.free ≥ st.burst) :
      ThrottleStep st { st with last := now, queue := rest, free := st.free - cost }
  | execAffordable (st : ThrottleState) (cost : ℚ) (ev : Nat)
      (rest : List (ℚ × Nat)) (hq : st.queue = (cost, ev) :: rest)
      (hnotfull : ¬ st.free ≥ st.burst) (hafford : ¬ cost > st.free) :
      ThrottleStep st { st with queue := rest, free := st.free - cost }

/-- A throttle step in a run where every queued cost is nonnegative. -/
def NonnegStep (st st' : ThrottleState) : Prop :=
  ThrottleStep st st' ∧ ∀ i ∈ st'.queue, (0 : ℚ) ≤ i.1

/-- The bucket invariant: level at most capacity, all queued costs
nonnegative. -/
def ThrottleInv (st : ThrottleState) : Prop :=
  st.free ≤ st.burst ∧ ∀ i ∈ st.queue, (0 : ℚ) ≤ i.1

theorem throttleInv_preserved {st st' : ThrottleState}
    (hinv : ThrottleInv st) (hstep : NonnegStep st st') : ThrottleInv st' := by
  obtain ⟨hfree, hqueue⟩ := hinv
  obtain ⟨hstep, hqueue'⟩ := hstep
  refine ⟨?_, hqueue'⟩
  cases hstep with
  | add cost ev => exact hfree
  | extendStep items => exact hfree
  | recoverStep now =>
    rw [recover]
    split
    · exact min_le_right _ _
    · exact hfree
  | execFull now cost ev rest hq hfull =>
    have hc : (0 : ℚ) ≤ cost := hqueue (cost, ev) (hq ▸ List.mem_cons_self _ _)
    simp only
    linarith
  | execAffordable cost ev rest hq hnotfull hafford =>
    have hc : (0 : ℚ) ≤ cost := hqueue (cost, ev) (hq ▸ List.mem_cons_self _ _)
    simp only
    linarith

/-- C8, amended: for a Throttle constructed with valid parameters, `free`
starts at `burst` and — along any sequence of add/extend/recover/execute
steps in which every queued cost is nonnegative — never exceeds `burst`:
recovery clamps at `min(free + recovered, burst)` and executing an item
decreases `free` by the item's cost. -/
theorem throttle_free_never_exceeds_burst (now burst rate amount : ℚ)
    (st0 st : ThrottleState)
    (hinit : throttleInit now burst rate amount = Except.ok st0)
    (hsteps : Relation.ReflTransGen NonnegStep st0 st) :
    st0.free = st0.burst ∧ st.free ≤ st.burst := by
  have hst0 : st0.free = st0.burst ∧ st0.queue = [] := by
    rw [throttleInit] at hinit
    split at hinit
    · cases hinit
    · split at hinit
      · cases hinit
      · split at hinit
        · cases hinit
        · cases hinit
          exact ⟨rfl, rfl⟩
  have hinv0 : ThrottleInv st0 := by
    refine ⟨le_of_eq hst0.1, ?_⟩
    rw [hst0.2]
    intro i hi
    cases hi
  have hinv : ThrottleInv st := by
    induction hsteps with
    | refl => exact hinv0
    | tail _ hstep ih => exact throttleInv_preserved ih hstep
  exact ⟨hst0.1, hinv.1⟩

/-- Witness for the amended C8: one nonnegative-cost add followed by a
full-bucket execution keeps `free ≤ burst`. -/
theorem throttle_free_never_exceeds_burst_witness :
    ∃ st : ThrottleState,
      Relation.ReflTransGen NonnegStep
        { burst := 5, rate := 1, amount := 1, free := 5, last := 0, queue := [] }
        st ∧
      ({ burst := 5, rate := 1, amount := 1, free := 5, last := 0,
         queue := [] } : ThrottleState).free =
        ({ burst := 5, rate := 1, amount := 1, free := 5, last := 0,
           queue := [] } : ThrottleState).burst ∧
      st.free ≤ st.burst := by
  refine ⟨{ burst := 5, rate := 1, amount := 1, free := 5, last := 0,
            queue := [(2, 3)] }, ?_, ?_⟩
  · refine Relation.ReflTransGen.tail Relation.ReflTransGen.refl ?_
    refine ⟨?_, ?_⟩
    · exact ThrottleStep.add _ 2 3
    · intro i hi
      simp only [List.mem_singleton] at hi
      subst hi
      norm_num
  · have := throttle_free_never_exceeds_burst 0 5 1 1
      { burst := 5, rate := 1, amount := 1, free := 5, last := 0, queue := [] }
      { burst := 5, rate := 1, amount := 1, free := 5, last := 0, queue := [(2, 3)] }
      rfl
      (Relation.ReflTransGen.tail Relation.ReflTransGen.refl
        ⟨ThrottleStep.add _ 2 3, by
          intro i hi
          simp only [List.mem_singleton] at hi
          subst hi
          norm_num⟩)
    exact this

/-- C8 as literally stated is false: `add` places no constraint on costs, and
executing a *negative*-cost item from a full bucket pushes `free` above
`burst`.  From a freshly constructed `Throttle(burst=5, rate=1)`, one
`add(-1, fn)` followed by one run-loop pass reaches `free = 6 > burst = 5`. -/
theorem throttle_free_exceeds_burst_counterexample :
    ∃ st0 st : ThrottleState,
      throttleInit 0 5 1 1 = Except.ok st0 ∧
      Relation.ReflTransGen ThrottleStep st0 st ∧
      st.free > st.burst := by
  refine ⟨{ burst := 5, rate := 1, amount := 1, free := 5, last := 0, queue := [] },
    { burst := 5, rate := 1, amount := 1, free := 6, last := 0, queue := [] },
    rfl, ?_, by norm_num⟩
  have h1 : ThrottleStep
      { burst := 5, rate := 1, amount := 1, free := 5, last := 0, queue := [] }
      { burst := 5, rate := 1, amount := 1, free := 5, last := 0,
        queue := [(-1, 0)] } := ThrottleStep.add _ (-1) 0
  have h2 : ThrottleStep
      { burst := 5, rate := 1, amount := 1, free := 5, last := 0,
        queue := [(-1, 0)] }
      { burst := 5, rate := 1, amount := 1, free := 6, last := 0, queue := [] } := by
    have := ThrottleStep.execFull
      { burst := 5, rate := 1, amount := 1, free := 5, last := 0,
        queue := [(-1, 0)] }
      0 (-1) 0 [] rfl (by norm_num)
    have h56 : (5 : ℚ) - (-1) = 6 := by norm_num
    simpa [h56] using this
  exact Relation.ReflTransGen.tail
    (Relation.ReflTransGen.tail Relation.ReflTransGen.refl h1) h2

/-!
## DependencyItem / DependencyDict (src/util.py lines 274-519)

Keys are modelled as `Nat`; the relation sets of a `DependencyItem` as
`Finset Nat`; `priority` as `Int` (the default `get_priority=True` uses the
priority values themselves, compared and sorted).  The solver's `pending`
`OrderedDict` is an insertion-ordered association list whose keys are either
real dictionary keys or the `_DependencyPriority` sentinels synthesized for
priority groups; its values are Python sets (`Finset DKey`).  The model fixes
the default configuration `DependencyDict(key=False, get_priority=True)` used
by `Registry` (`sortkey=False`: ties within a pass keep insertion order).
-/

/-- A key of the solver's `pending` map: a real dictionary key or a
`_DependencyPriority(priority)` sentinel (lines 301-321; sentinels hash
differently from every plain key). -/
inductive DKey
  | node (k : Nat)
  | prio (p : Int)
  deriving DecidableEq, Repr

/-- The fields of the `DependencyItem` namedtuple, declared in the order
`['before', 'after', 'requires', 'required_by', 'priority', 'data']`
(line 275; the opaque `data` payload is omitted). -/
structure DependencyItem where
  before : Finset Nat
  after : Finset Nat
  requires : Finset Nat
  required_by : Finset Nat
  priority : Int
  deriving DecidableEq

/-- `DependencyItem.__new__` (lines 276-298).  The local bindings are
```
before      = set(before)      if before      else set()   -- line 293
after       = set(after)       if after       else set()   -- line 294
required_by = set(required_by) if required_by else set()   -- line 295
requires    = set(required_by) if required_by else set()   -- line 296  (sic)
```
and they are passed positionally as
`super().__new__(cls, before, after, required_by, requires, priority, data)`
into the field order `(before, after, requires, required_by, ...)` — so the
`requires` *parameter* is ignored entirely and both the `requires` and
`required_by` fields receive `set(required_by)`. -/
def DependencyItem.new (before after required_by requires : Finset Nat)
    (priority : Int) : DependencyItem :=
  { before := before, after := after,
    requires := required_by, required_by := required_by, priority := priority }

/-- The `OrderedDict` of a `DependencyDict` (`self._data`). -/
abbrev DepData := List (Nat × DependencyItem)

/-- The solver's `pending` OrderedDict: key → set of not-yet-satisfied
dependencies. -/
abbrev Pending := List (DKey × Finset DKey)

/-- A `Finset Nat` of dictionary keys lifted into pending keys. -/
def nodeSet (s : Finset Nat) : Finset DKey :=
  s.image DKey.node

/-- `for other in targets: pending[other].add(dep)` — insert `dep` into the
dependency set of every entry whose key lies in `targets`. -/
def addDepTo (p : Pending) (targets : Finset DKey) (dep : DKey) : Pending :=
  p.map (fun e => if e.1 ∈ targets then (e.1, insert dep e.2) else e)

/-- `pending[key].update(extra)`. -/
def updateDeps (p : Pending) (key : DKey) (extra : Finset DKey) : Pending :=
  p.map (fun e => if e.1 = key then (e.1, e.2 ∪ extra) else e)

/-- The `RuntimeError`s of `DependencyDict.solve` (lines 456, 461, 505):
self-reference, a missing mandatory target (Python reports one arbitrary
element via `missing.pop()`; the model carries the whole missing set), and
the no-progress cycle error with its pass number and remaining item count. -/
inductive SolveErr
  | selfRef (k : Nat) (attr : String)
  | missingTarget (k : Nat) (attr : String) (missing : Finset Nat)
  | cycle (passNo : Nat) (remaining : Nat)
  deriving DecidableEq

/-- The dictionary's key set. -/
def keysOf (data : DepData) : Finset Nat :=
  (data.map Prod.fst).toFinset

/-- `pending = OrderedDict((k, set()) for k in self._data)` (line 442). -/
def initPending (data : DepData) : Pending :=
  data.map (fun kv => (DKey.node kv.1, (∅ : Finset DKey)))

/-- The validation pass for one item (lines 452-470), following
`_ITEM_ATTRINFO` order: `before` (optional, reverse edge), `required_by`
(mandatory, reverse edge), `after` (optional, forward edge), `requires`
(mandatory, forward edge).  Each attribute first checks self-reference, a
mandatory attribute then checks `items - keys` for missing targets;
optional attributes use `items & keys`, mandatory ones use `items`
unfiltered. -/
def validateItem (keys : Finset Nat) (k : Nat) (v : DependencyItem)
    (p : Pending) : Except SolveErr Pending :=
  if k ∈ v.before then Except.error (SolveErr.selfRef k "before")
  else
    let p1 := addDepTo p (nodeSet (v.before ∩ keys)) (DKey.node k)
    if k ∈ v.required_by then Except.error (SolveErr.selfRef k "required_by")
    else if v.required_by \ keys ≠ ∅ then
      Except.error (SolveErr.missingTarget k "required_by" (v.required_by \ keys))
    else
      let p2 := addDepTo p1 (nodeSet v.required_by) (DKey.node k)
      if k ∈ v.after then Except.error (SolveErr.selfRef k "after")
      else
        let p3 := updateDeps p2 (DKey.node k) (nodeSet (v.after ∩ keys))
        if k ∈ v.requires then Except.error (SolveErr.selfRef k "requires")
        else if v.requires \ keys ≠ ∅ then
          Except.error (SolveErr.missingTarget k "requires" (v.requires \ keys))
        else Except.ok (updateDeps p3 (DKey.node k) (nodeSet v.requires))

/-- The validation loop over all items in dictionary order. -/
def buildPendingAux (keys : Finset Nat) :
    List (Nat × DependencyItem) → Pending → Except SolveErr Pending
  | [], p => Except.ok p
  | kv :: rest, p =>
    match validateItem keys kv.1 kv.2 p with
    | Except.error e => Except.error e
    | Except.ok p' => buildPendingAux keys rest p'

/-- Validation and initial edge collection of `solve` (lines 442-473). -/
def buildPending (data : DepData) : Except SolveErr Pending :=
  buildPendingAux (keysOf data) data (initPending data)

/-- Insertion into a sorted list, for Python's `sorted` on priorities. -/
def insertSorted (x : Int) : List Int → List Int
  | [] => [x]
  | y :: rest => if x ≤ y then x :: y :: rest else y :: insertSorted x rest

/-- Ascending sort of the distinct priority values
(`sorted(priorities.keys())`). -/
def sortInts : List Int → List Int
  | [] => []
  | x :: rest => insertSorted x (sortInts rest)

/-- The distinct priority values, ascending. -/
def distinctPriorities (data : DepData) : List Int :=
  sortInts ((data.map (fun kv => kv.2.priority)).dedup)

/-- `priorities[p]`: the keys of the items with priority `p`, in dictionary
order (built by appending inside the validation loop, line 473). -/
def groupMembers (data : DepData) (p : Int) : List Nat :=
  (data.filter (fun kv => kv.2.priority = p)).map Prod.fst

/-- The group-edge loop (lines 483-492): for each priority ascending, make
every member depend on the previous group's sentinel, then append the
sentinel entry `pending[_DependencyPriority(p)] = set(members)`. -/
def goPrio (data : DepData) : List Int → Option Int → Pending → Pending
  | [], _, p => p
  | pr :: rest, prev, p =>
    let members := (groupMembers data pr).toFinset
    let p1 :=
      match prev with
      | some q => addDepTo p (nodeSet members) (DKey.prio q)
      | none => p
    goPrio data rest (some pr) (p1 ++ [(DKey.prio pr, nodeSet members)])

/-- Priority-group handling (lines 475-492): skipped entirely when there is
at most one distinct priority (line 479). -/
def addPrioEdges (data : DepData) (p : Pending) : Pending :=
  let ps := distinctPriorities data
  if ps.length ≤ 1 then p else goPrio data ps none p

/-- One pass's zero-dependency keys, in pending order (line 501). -/
def kahnSolved (p : Pending) : List DKey :=
  (p.filter (fun e => e.2 = ∅)).map Prod.fst

/-- The pending map after one pass: solved entries deleted, solved keys
removed from every remaining dependency set (lines 511-514). -/
def kahnRest (p : Pending) : Pending :=
  (p.filter (fun e => ¬ e.2 = ∅)).map
    (fun e => (e.1, e.2 \ (kahnSolved p).toFinset))

theorem kahnRest_length_lt (p : Pending) (hp : p ≠ [])
    (hs : kahnSolved p ≠ []) : (kahnRest p).length < p.length := by
  have hperm :=
    (List.filter_append_perm (fun e => decide (e.2 = ∅)) p).length_eq
  rw [List.length_append] at hperm
  have h1 : (p.filter (fun e => decide (e.2 = ∅))) ≠ [] := by
    intro hnil
    apply hs
    rw [kahnSolved, hnil, List.map_nil]
  have h1' : 1 ≤ (p.filter (fun e => decide (e.2 = ∅))).length :=
    Nat.one_le_iff_ne_zero.mpr (fun h0 => h1 (List.length_eq_zero.mp h0))
  have h2 : (kahnRest p).length =
      (p.filter (fun x => !decide (x.2 = ∅))).length := by
    rw [kahnRest, List.length_map]
    congr 1
    apply List.filter_congr
    intro e _
    simp [decide_not]
  rw [h2]
  omega

/-- The `while pending` loop (lines 495-514) with `sortkey=False`: each pass
emits the keys of the entries with no remaining dependencies (in pending
order), raises the cycle `RuntimeError` when a pass makes no progress, else
deletes them and subtracts them from the remaining sets.  `n` is the pass
counter; `fuel` bounds the number of passes for structural recursion — each
successful pass removes at least one entry, so `fuel = p.length` (as `kahn`
supplies) never runs out and the fuel-exhausted branch is unreachable. -/
def kahnFuel : Nat → Pending → Nat → Except SolveErr (List DKey)
  | _, [], _ => Except.ok []
  | 0, _ :: _, n => Except.error (SolveErr.cycle n 0)
  | fuel + 1, e :: rest, n =>
    let p := e :: rest
    if kahnSolved p = [] then Except.error (SolveErr.cycle (n + 1) p.length)
    else
      match kahnFuel fuel (kahnRest p) (n + 1) with
      | Except.error err => Except.error err
      | Except.ok sol => Except.ok (kahnSolved p ++ sol)

/-- The elimination loop, with enough fuel for every pass. -/
def kahn (p : Pending) (n : Nat) : Except SolveErr (List DKey) :=
  kahnFuel p.length p n

/-- The dictionary key behind a pending key, if any. -/
def nodeOf : DKey → Option Nat
  | DKey.node k => some k
  | DKey.prio _ => none

/-- `DependencyDict.solve` (lines 437-519): empty dictionaries are already
solved; otherwise validate and build `pending`, add priority-group edges,
run the elimination loop, and rebuild `self._data` from the solution with
the `_DependencyPriority` sentinels filtered out
(`(k, self._data[k]) for k in solution if not isinstance(k, _DependencyPriority)`). -/
def solve (data : DepData) : Except SolveErr DepData :=
  if data = [] then Except.ok []
  else
    match buildPending data with
    | Except.error e => Except.error e
    | Except.ok p =>
      match kahn (addPrioEdges data p) 0 with
      | Except.error e => Except.error e
      | Except.ok sol =>
        Except.ok
          ((sol.filterMap nodeOf).filterMap
            (fun j => (data.find? (fun kv => kv.1 = j)).map (fun kv => (j, kv.2))))

/-- C6 fails on the code: the `requires` parameter of
`DependencyItem.__new__` is ignored (line 296 builds it from `required_by`,
and line 298 feeds the locals into the namedtuple slots in swapped order),
so an item created with `requires={1}` has *empty* `requires` and
`required_by` fields.  Solving a dict whose only item "requires" the absent
key `1` therefore succeeds silently instead of raising the documented
missing-target `RuntimeError`, and with both keys present the solved order
puts the requiring item *before* its required target.  (By contrast, a set
passed as `required_by` does land in the fields, and its missing-target
check fires — the slip is in the constructor, not the solver.) -/
theorem requires_param_ignored_bug :
    DependencyItem.new ∅ ∅ ∅ {1} 0 =
      { before := ∅, after := ∅, requires := ∅, required_by := ∅, priority := 0 } ∧
    solve [(0, DependencyItem.new ∅ ∅ ∅ {1} 0)] =
      Except.ok [(0, DependencyItem.new ∅ ∅ ∅ {1} 0)] ∧
    solve [(0, DependencyItem.new ∅ ∅ ∅ {1} 0), (1, DependencyItem.new ∅ ∅ ∅ ∅ 0)] =
      Except.ok
        [(0, DependencyItem.new ∅ ∅ ∅ {1} 0), (1, DependencyItem.new ∅ ∅ ∅ ∅ 0)] ∧
    solve [(0, DependencyItem.new ∅ ∅ {1} ∅ 0)] =
      Except.error (SolveErr.missingTarget 0 "required_by" {1}) :=
  ⟨rfl, rfl, rfl, rfl⟩

/-!
### Correctness lemmas for `solve`

`Precedes l a b` states that some occurrence of `a` comes strictly before
some occurrence of `b` in `l`; on the duplicate-free outputs of `solve` this
is exactly "`a` appears earlier than `b`".
-/

/-- `a` occurs strictly before `b` in `l`. -/
def Precedes {α : Type} (l : List α) (a b : α) : Prop :=
  ∃ l₁ l₂ l₃, l = l₁ ++ a :: l₂ ++ b :: l₃

theorem Precedes.append_left {α : Type} {l : List α} {a b : α}
    (l₀ : List α) (h : Precedes l a b) : Precedes (l₀ ++ l) a b := by
  obtain ⟨l₁, l₂, l₃, rfl⟩ := h
  exact ⟨l₀ ++ l₁, l₂, l₃, by simp⟩

theorem Precedes.of_mem_append {α : Type} {l₁ l₂ : List α} {a b : α}
    (ha : a ∈ l₁) (hb : b ∈ l₂) : Precedes (l₁ ++ l₂) a b := by
  obtain ⟨s₁, s₂, rfl⟩ := List.append_of_mem ha
  obtain ⟨t₁, t₂, rfl⟩ := List.append_of_mem hb
  exact ⟨s₁, s₂ ++ t₁, t₂, by simp⟩

theorem Precedes.filterMap {α β : Type} {l : List α} {a b : α}
    (f : α → Option β) {a' b' : β} (h : Precedes l a b)
    (ha : f a = some a') (hb : f b = some b') :
    Precedes (l.filterMap f) a' b' := by
  obtain ⟨l₁, l₂, l₃, rfl⟩ := h
  refine ⟨l₁.filterMap f, l₂.filterMap f, l₃.filterMap f, ?_⟩
  simp [List.filterMap_append, List.filterMap_cons, ha, hb]

/-- Keys of `addDepTo` are unchanged. -/
theorem addDepTo_keys (p : Pending) (t : Finset DKey) (d : DKey) :
    (addDepTo p t d).map Prod.fst = p.map Prod.fst := by
  rw [addDepTo, List.map_map]
  apply List.map_congr_left
  intro e _
  by_cases h : e.1 ∈ t <;> simp [h]

/-- Keys of `updateDeps` are unchanged. -/
theorem updateDeps_keys (p : Pending) (k : DKey) (extra : Finset DKey) :
    (updateDeps p k extra).map Prod.fst = p.map Prod.fst := by
  rw [updateDeps, List.map_map]
  apply List.map_congr_left
  intro e _
  by_cases h : e.1 = k <;> simp [h]

/-- `p` is pointwise below `q`: every entry's dependency set only grows. -/
def PendingLE (p q : Pending) : Prop :=
  ∀ k s, (k, s) ∈ p → ∃ s', (k, s') ∈ q ∧ s ⊆ s'

theorem PendingLE.refl (p : Pending) : PendingLE p p :=
  fun _ s h => ⟨s, h, Finset.Subset.refl s⟩

theorem PendingLE.trans {p q r : Pending} (h₁ : PendingLE p q)
    (h₂ : PendingLE q r) : PendingLE p r := by
  intro k s hk
  obtain ⟨s', hs', hsub⟩ := h₁ k s hk
  obtain ⟨s'', hs'', hsub'⟩ := h₂ k s' hs'
  exact ⟨s'', hs'', Finset.Subset.trans hsub hsub'⟩

theorem PendingLE.addDepTo (p : Pending) (t : Finset DKey) (d : DKey) :
    PendingLE p (addDepTo p t d) := by
  intro k s hk
  by_cases h : k ∈ t
  · refine ⟨insert d s, ?_, Finset.subset_insert _ _⟩
    rw [IrcBot.addDepTo]
    refine List.mem_map.mpr ⟨(k, s), hk, ?_⟩
    simp [h]
  · refine ⟨s, ?_, Finset.Subset.refl s⟩
    rw [IrcBot.addDepTo]
    refine List.mem_map.mpr ⟨(k, s), hk, ?_⟩
    simp [h]

theorem PendingLE.updateDeps (p : Pending) (key : DKey) (extra : Finset DKey) :
    PendingLE p (updateDeps p key extra) := by
  intro k s hk
  by_cases h : k = key
  · refine ⟨s ∪ extra, ?_, Finset.subset_union_left⟩
    rw [IrcBot.updateDeps]
    refine List.mem_map.mpr ⟨(k, s), hk, ?_⟩
    simp [h]
  · refine ⟨s, ?_, Finset.Subset.refl s⟩
    rw [IrcBot.updateDeps]
    refine List.mem_map.mpr ⟨(k, s), hk, ?_⟩
    simp [h]

theorem PendingLE.append (p q : Pending) : PendingLE p (p ++ q) :=
  fun k s hk => ⟨s, List.mem_append_left q hk, Finset.Subset.refl s⟩

theorem mem_keys_iff {p : Pending} {k : DKey} :
    k ∈ p.map Prod.fst ↔ ∃ s, (k, s) ∈ p := by
  constructor
  · intro h
    obtain ⟨e, he, heq⟩ := List.mem_map.mp h
    exact ⟨e.2, by rwa [← heq, Prod.mk.eta]⟩
  · rintro ⟨s, hs⟩
    exact List.mem_map.mpr ⟨(k, s), hs, rfl⟩

theorem addDepTo_mem_edge {p : Pending} {k₀ : DKey} {s₀ : Finset DKey}
    (h : (k₀, s₀) ∈ p) {t : Finset DKey} (ht : k₀ ∈ t) (d : DKey) :
    (k₀, insert d s₀) ∈ addDepTo p t d := by
  rw [addDepTo]
  refine List.mem_map.mpr ⟨(k₀, s₀), h, ?_⟩
  simp [ht]

theorem updateDeps_mem_edge {p : Pending} {k₀ : DKey} {s₀ : Finset DKey}
    (h : (k₀, s₀) ∈ p) (extra : Finset DKey) :
    (k₀, s₀ ∪ extra) ∈ updateDeps p k₀ extra := by
  rw [updateDeps]
  refine List.mem_map.mpr ⟨(k₀, s₀), h, ?_⟩
  simp

/-- A successful `validateItem` is exactly the four edge-collection updates,
and the mandatory attributes were verified to lie inside `keys`. -/
theorem validateItem_ok {keys : Finset Nat} {k : Nat} {v : DependencyItem}
    {p p' : Pending} (h : validateItem keys k v p = Except.ok p') :
    p' = updateDeps (updateDeps (addDepTo (addDepTo p
        (nodeSet (v.before ∩ keys)) (DKey.node k))
        (nodeSet v.required_by) (DKey.node k))
        (DKey.node k) (nodeSet (v.after ∩ keys)))
        (DKey.node k) (nodeSet v.requires) ∧
    v.required_by ⊆ keys ∧ v.requires ⊆ keys := by
  rw [validateItem] at h
  split at h
  · cases h
  · split at h
    · cases h
    · split at h
      · cases h
      · split at h
        · cases h
        · split at h
          · cases h
          · split at h
            · cases h
            · rename_i h1 h2 h3 h4 h5 h6
              injection h with h
              refine ⟨h.symm, ?_, ?_⟩
              · rw [← Finset.sdiff_eq_empty_iff_subset]
                exact not_ne_iff.mp h3
              · rw [← Finset.sdiff_eq_empty_iff_subset]
                exact not_ne_iff.mp h6

theorem validateItem_keys {keys : Finset Nat} {k : Nat} {v : DependencyItem}
    {p p' : Pending} (h : validateItem keys k v p = Except.ok p') :
    p'.map Prod.fst = p.map Prod.fst := by
  rw [(validateItem_ok h).1, updateDeps_keys, updateDeps_keys, addDepTo_keys,
    addDepTo_keys]

theorem validateItem_mono {keys : Finset Nat} {k : Nat} {v : DependencyItem}
    {p p' : Pending} (h : validateItem keys k v p = Except.ok p') :
    PendingLE p p' := by
  rw [(validateItem_ok h).1]
  exact ((((PendingLE.addDepTo p _ _).trans
    (PendingLE.addDepTo _ _ _)).trans
    (PendingLE.updateDeps _ _ _)).trans
    (PendingLE.updateDeps _ _ _))

/-- Processing an item adds, for every existing `before`-target `j`, the
reverse edge `k ∈ pending[j]`. -/
theorem validateItem_before_edge {keys : Finset Nat} {k : Nat}
    {v : DependencyItem} {p p' : Pending}
    (h : validateItem keys k v p = Except.ok p') {j : Nat}
    (hj : j ∈ v.before) (hjk : j ∈ keys)
    (hmem : DKey.node j ∈ p.map Prod.fst) :
    ∃ s, (DKey.node j, s) ∈ p' ∧ DKey.node k ∈ s := by
  obtain ⟨s, hs⟩ := mem_keys_iff.mp hmem
  have hedge := addDepTo_mem_edge hs
    (t := nodeSet (v.before ∩ keys))
    (Finset.mem_image_of_mem DKey.node (Finset.mem_inter.mpr ⟨hj, hjk⟩))
    (DKey.node k)
  have hle : PendingLE (addDepTo p (nodeSet (v.before ∩ keys)) (DKey.node k)) p' := by
    rw [(validateItem_ok h).1]
    exact ((PendingLE.addDepTo _ _ _).trans
      (PendingLE.updateDeps _ _ _)).trans (PendingLE.updateDeps _ _ _)
  obtain ⟨s', hs', hsub⟩ := hle _ _ hedge
  exact ⟨s', hs', hsub (Finset.mem_insert_self _ _)⟩

/-- Processing an item adds, for every existing `after`-target `j`, the
forward edge `j ∈ pending[k]`. -/
theorem validateItem_after_edge {keys : Finset Nat} {k : Nat}
    {v : DependencyItem} {p p' : Pending}
    (h : validateItem keys k v p = Except.ok p') {j : Nat}
    (hj : j ∈ v.after) (hjk : j ∈ keys)
    (hmem : DKey.node k ∈ p.map Prod.fst) :
    ∃ s, (DKey.node k, s) ∈ p' ∧ DKey.node j ∈ s := by
  obtain ⟨s, hs⟩ := mem_keys_iff.mp hmem
  have hle2 : PendingLE p (addDepTo (addDepTo p
      (nodeSet (v.before ∩ keys)) (DKey.node k))
      (nodeSet v.required_by) (DKey.node k)) :=
    (PendingLE.addDepTo _ _ _).trans (PendingLE.addDepTo _ _ _)
  obtain ⟨s₂, hs₂, _⟩ := hle2 _ _ hs
  have hedge := updateDeps_mem_edge hs₂ (nodeSet (v.after ∩ keys))
  have hle3 : PendingLE (updateDeps (addDepTo (addDepTo p
      (nodeSet (v.before ∩ keys)) (DKey.node k))
      (nodeSet v.required_by) (DKey.node k))
      (DKey.node k) (nodeSet (v.after ∩ keys))) p' := by
    rw [(validateItem_ok h).1]
    exact PendingLE.updateDeps _ _ _
  obtain ⟨s', hs', hsub⟩ := hle3 _ _ hedge
  refine ⟨s', hs', hsub ?_⟩
  exact Finset.mem_union_right _
    (Finset.mem_image_of_mem DKey.node (Finset.mem_inter.mpr ⟨hj, hjk⟩))

theorem buildPendingAux_keys (keys : Finset Nat) :
    ∀ (items : List (Nat × DependencyItem)) (p p' : Pending),
      buildPendingAux keys items p = Except.ok p' →
        p'.map Prod.fst = p.map Prod.fst
  | [], p, p', h => by
    rw [buildPendingAux] at h
    injection h with h
    rw [h]
  | kv :: rest, p, p', h => by
    rw [buildPendingAux] at h
    split at h
    · cases h
    · rename_i p₁ hv
      rw [buildPendingAux_keys keys rest p₁ p' h, validateItem_keys hv]

theorem buildPendingAux_mono (keys : Finset Nat) :
    ∀ (items : List (Nat × DependencyItem)) (p p' : Pending),
      buildPendingAux keys items p = Except.ok p' → PendingLE p p'
  | [], p, p', h => by
    rw [buildPendingAux] at h
    injection h with h
    rw [← h]
    exact PendingLE.refl p
  | kv :: rest, p, p', h => by
    rw [buildPendingAux] at h
    split at h
    · cases h
    · rename_i p₁ hv
      exact (validateItem_mono hv).trans (buildPendingAux_mono keys rest p₁ p' h)

theorem buildPendingAux_before_edge (keys : Finset Nat) :
    ∀ (items : List (Nat × DependencyItem)) (p p' : Pending),
      buildPendingAux keys items p = Except.ok p' →
      ∀ (k : Nat) (v : DependencyItem), (k, v) ∈ items →
      ∀ j ∈ v.before, j ∈ keys → DKey.node j ∈ p.map Prod.fst →
        ∃ s, (DKey.node j, s) ∈ p' ∧ DKey.node k ∈ s
  | [], p, p', h, k, v, hin => by cases hin
  | kv :: rest, p, p', h, k, v, hin => by
    intro j hj hjk hmem
    rw [buildPendingAux] at h
    split at h
    · cases h
    · rename_i p₁ hv
      rcases List.mem_cons.mp hin with heq | htail
      · obtain ⟨rfl, rfl⟩ : kv.1 = k ∧ kv.2 = v := by
          rw [← heq]
          exact ⟨rfl, rfl⟩
        obtain ⟨s, hs, hks⟩ := validateItem_before_edge hv hj hjk hmem
        obtain ⟨s', hs', hsub⟩ := buildPendingAux_mono keys rest p₁ p' h _ _ hs
        exact ⟨s', hs', hsub hks⟩
      · refine buildPendingAux_before_edge keys rest p₁ p' h k v htail j hj hjk ?_
        rwa [validateItem_keys hv]

theorem buildPendingAux_after_edge (keys : Finset Nat) :
    ∀ (items : List (Nat × DependencyItem)) (p p' : Pending),
      buildPendingAux keys items p = Except.ok p' →
      ∀ (k : Nat) (v : DependencyItem), (k, v) ∈ items →
      ∀ j ∈ v.after, j ∈ keys → DKey.node k ∈ p.map Prod.fst →
        ∃ s, (DKey.node k, s) ∈ p' ∧ DKey.node j ∈ s
  | [], p, p', h, k, v, hin => by cases hin
  | kv :: rest, p, p', h, k, v, hin => by
    intro j hj hjk hmem
    rw [buildPendingAux] at h
    split at h
    · cases h
    · rename_i p₁ hv
      rcases List.mem_cons.mp hin with heq | htail
      · obtain ⟨rfl, rfl⟩ : kv.1 = k ∧ kv.2 = v := by
          rw [← heq]
          exact ⟨rfl, rfl⟩
        obtain ⟨s, hs, hks⟩ := validateItem_after_edge hv hj hjk hmem
        obtain ⟨s', hs', hsub⟩ := buildPendingAux_mono keys rest p₁ p' h _ _ hs
        exact ⟨s', hs', hsub hks⟩
      · refine buildPendingAux_after_edge keys rest p₁ p' h k v htail j hj hjk ?_
        rwa [validateItem_keys hv]

theorem goPrio_keys (data : DepData) :
    ∀ (ps : List Int) (prev : Option Int) (p : Pending),
      (goPrio data ps prev p).map Prod.fst =
        p.map Prod.fst ++ ps.map DKey.prio
  | [], prev, p => by simp [goPrio]
  | pr :: rest, prev, p => by
    cases prev with
    | none =>
      rw [show goPrio data (pr :: rest) none p =
          goPrio data rest (some pr)
            (p ++ [(DKey.prio pr, nodeSet (groupMembers data pr).toFinset)]) from rfl]
      rw [goPrio_keys data rest (some pr) _]
      simp
    | some q =>
      rw [show goPrio data (pr :: rest) (some q) p =
          goPrio data rest (some pr)
            (addDepTo p (nodeSet (groupMembers data pr).toFinset) (DKey.prio q) ++
              [(DKey.prio pr, nodeSet (groupMembers data pr).toFinset)]) from rfl]
      rw [goPrio_keys data rest (some pr) _]
      simp [addDepTo_keys]

theorem goPrio_mono (data : DepData) :
    ∀ (ps : List Int) (prev : Option Int) (p : Pending),
      PendingLE p (goPrio data ps prev p)
  | [], prev, p => by
    rw [goPrio]
    exact PendingLE.refl p
  | pr :: rest, prev, p => by
    cases prev with
    | none =>
      rw [show goPrio data (pr :: rest) none p =
          goPrio data rest (some pr)
            (p ++ [(DKey.prio pr, nodeSet (groupMembers data pr).toFinset)]) from rfl]
      exact (PendingLE.append _ _).trans (goPrio_mono data rest (some pr) _)
    | some q =>
      rw [show goPrio data (pr :: rest) (some q) p =
          goPrio data rest (some pr)
            (addDepTo p (nodeSet (groupMembers data pr).toFinset) (DKey.prio q) ++
              [(DKey.prio pr, nodeSet (groupMembers data pr).toFinset)]) from rfl]
      exact ((PendingLE.addDepTo _ _ _).trans (PendingLE.append _ _)).trans
        (goPrio_mono data rest (some pr) _)

theorem addPrioEdges_mono (data : DepData) (p : Pending) :
    PendingLE p (addPrioEdges data p) := by
  rw [addPrioEdges]
  split
  · exact PendingLE.refl p
  · exact goPrio_mono data _ none p

theorem addPrioEdges_keys (data : DepData) (p : Pending) :
    (addPrioEdges data p).map Prod.fst = p.map Prod.fst ∨
      (addPrioEdges data p).map Prod.fst =
        p.map Prod.fst ++ (distinctPriorities data).map DKey.prio := by
  rw [addPrioEdges]
  split
  · exact Or.inl rfl
  · exact Or.inr (goPrio_keys data _ none p)

theorem kahnRest_map_fst (p : Pending) :
    (kahnRest p).map Prod.fst =
      (p.filter (fun x => !decide (x.2 = ∅))).map Prod.fst := by
  rw [kahnRest, List.map_map]
  have h1 : (p.filter (fun e => decide (¬ e.2 = ∅))) =
      (p.filter (fun x => !decide (x.2 = ∅))) := by
    apply List.filter_congr
    intro e _
    simp [decide_not]
  rw [h1]
  apply List.map_congr_left
  intro e _
  rfl

theorem kahnSolved_append_rest_perm (p : Pending) :
    List.Perm (kahnSolved p ++ (kahnRest p).map Prod.fst) (p.map Prod.fst) := by
  have hperm := (List.filter_append_perm (fun e => decide (e.2 = ∅)) p).map Prod.fst
  rw [List.map_append] at hperm
  rw [kahnRest_map_fst]
  exact hperm

theorem kahnFuel_perm :
    ∀ (fuel : Nat) (p : Pending) (n : Nat) (sol : List DKey),
      p.length ≤ fuel → kahnFuel fuel p n = Except.ok sol →
        List.Perm sol (p.map Prod.fst) := by
  intro fuel
  induction fuel with
  | zero =>
    intro p n sol hlen h
    cases p with
    | nil =>
      rw [kahnFuel] at h
      injection h with h
      rw [← h]
      rfl
    | cons e rest =>
      rw [kahnFuel] at h
      cases h
  | succ fuel ih =>
    intro p n sol hlen h
    cases p with
    | nil =>
      rw [kahnFuel] at h
      injection h with h
      rw [← h]
      rfl
    | cons e rest =>
      rw [kahnFuel] at h
      split at h
      · cases h
      · split at h
        · cases h
        · rename_i hsolved hmatch sol' heq
          injection h with h
          have hlen' : (kahnRest (e :: rest)).length ≤ fuel := by
            have := kahnRest_length_lt (e :: rest) (List.cons_ne_nil e rest) hsolved
            simp only [List.length_cons] at this hlen ⊢
            omega
          have hperm' := ih (kahnRest (e :: rest)) (n + 1) sol' hlen' heq
          rw [← h]
          exact (List.Perm.append_left (kahnSolved (e :: rest))
            (hperm'.trans (List.Perm.refl _))).trans
            ((List.Perm.append_left _ hperm'.symm).trans
              ((List.Perm.append_left _ hperm') |>.trans
                (kahnSolved_append_rest_perm (e :: rest))))

theorem kahnFuel_precedes :
    ∀ (fuel : Nat) (p : Pending) (n : Nat) (sol : List DKey),
      p.length ≤ fuel → kahnFuel fuel p n = Except.ok sol →
      ∀ (k : DKey) (deps : Finset DKey), (k, deps) ∈ p →
      ∀ d ∈ deps, d ∈ p.map Prod.fst → Precedes sol d k := by
  intro fuel
  induction fuel with
  | zero =>
    intro p n sol hlen h k deps hin d hd hdk
    cases p with
    | nil => cases hin
    | cons e rest =>
      rw [kahnFuel] at h
      cases h
  | succ fuel ih =>
    intro p n sol hlen h k deps hin d hd hdk
    cases p with
    | nil => cases hin
    | cons e rest =>
      rw [kahnFuel] at h
      split at h
      · cases h
      · split at h
        · cases h
        · rename_i hsolved hmatch sol' heq
          injection h with h
          subst h
          have hlen' : (kahnRest (e :: rest)).length ≤ fuel := by
            have := kahnRest_length_lt (e :: rest) (List.cons_ne_nil e rest) hsolved
            simp only [List.length_cons] at this hlen ⊢
            omega
          by_cases hdeps : deps = ∅
          · subst hdeps
            cases hd
          · have hkrest : (k, deps \ (kahnSolved (e :: rest)).toFinset) ∈
                kahnRest (e :: rest) := by
              rw [kahnRest]
              refine List.mem_map.mpr ⟨(k, deps), ?_, rfl⟩
              refine List.mem_filter.mpr ⟨hin, ?_⟩
              simpa using hdeps
            by_cases hdsolved : d ∈ kahnSolved (e :: rest)
            · have hk' : k ∈ (kahnRest (e :: rest)).map Prod.fst :=
                mem_keys_iff.mpr ⟨_, hkrest⟩
              have hksol' : k ∈ sol' :=
                (kahnFuel_perm fuel _ _ _ hlen' heq).mem_iff.mpr hk'
              exact Precedes.of_mem_append hdsolved hksol'
            · have hd' : d ∈ deps \ (kahnSolved (e :: rest)).toFinset := by
                refine Finset.mem_sdiff.mpr ⟨hd, ?_⟩
                simpa [List.mem_toFinset] using hdsolved
              have hdk' : d ∈ (kahnRest (e :: rest)).map Prod.fst := by
                obtain ⟨sd, hsd⟩ := mem_keys_iff.mp hdk
                by_cases hsde : sd = ∅
                · exact absurd
                    (List.mem_map.mpr ⟨(d, sd),
                      List.mem_filter.mpr ⟨hsd, by simp [hsde]⟩, rfl⟩)
                    hdsolved
                · rw [kahnRest_map_fst]
                  refine List.mem_map.mpr ⟨(d, sd), ?_, rfl⟩
                  refine List.mem_filter.mpr ⟨hsd, ?_⟩
                  simpa using hsde
              have hrec := ih (kahnRest (e :: rest)) (n + 1) sol' hlen' heq
                k _ hkrest d hd' hdk'
              exact hrec.append_left (kahnSolved (e :: rest))

/-- Acyclicity of a dependency table, in the standard finite-DAG form: every
nonempty subset of its keys contains a key none of whose dependencies lies in
the subset (every nonempty induced subgraph has a source).  Quantifying over
`Finset.powerset` keeps the property decidable on concrete tables. -/
def AcyclicPending (p : Pending) : Prop :=
  ∀ q ∈ (p.map Prod.fst).toFinset.powerset, q ≠ ∅ →
    ∃ x ∈ q, ∀ e ∈ p, e.1 = x → ∀ d ∈ e.2, d ∉ q

instance acyclicPendingDecidable (p : Pending) : Decidable (AcyclicPending p) :=
  inferInstanceAs (Decidable (∀ q ∈ (p.map Prod.fst).toFinset.powerset, q ≠ ∅ →
    ∃ x ∈ q, ∀ e ∈ p, e.1 = x → ∀ d ∈ e.2, d ∉ q))

/-- Every dependency recorded in the table refers to a key of the table. -/
def PendingWF (p : Pending) : Prop :=
  ∀ e ∈ p, ∀ d ∈ e.2, d ∈ p.map Prod.fst

theorem kahnRest_wf {p : Pending} (hwf : PendingWF p) :
    PendingWF (kahnRest p) := by
  intro e' he' d hd
  obtain ⟨e₁, he₁, heq⟩ := List.mem_map.mp he'
  have he₁p := (List.mem_filter.mp he₁).1
  rw [← heq] at hd
  simp only at hd
  have hd₂ := Finset.mem_sdiff.mp hd
  have hdk : d ∈ p.map Prod.fst := hwf e₁ he₁p d hd₂.1
  obtain ⟨sd, hsd⟩ := mem_keys_iff.mp hdk
  by_cases hsde : sd = ∅
  · exact absurd
      (List.mem_toFinset.mpr
        (List.mem_map.mpr ⟨(d, sd), List.mem_filter.mpr ⟨hsd, by simp [hsde]⟩, rfl⟩))
      hd₂.2
  · rw [kahnRest_map_fst]
    refine List.mem_map.mpr ⟨(d, sd), List.mem_filter.mpr ⟨hsd, ?_⟩, rfl⟩
    simpa using hsde

theorem kahnFuel_succeeds (p₀ : Pending) (hac : AcyclicPending p₀) :
    ∀ (fuel : Nat) (p : Pending) (n : Nat),
      p.length ≤ fuel → PendingWF p →
      (∀ e ∈ p, ∃ d₀, (e.1, d₀) ∈ p₀ ∧ e.2 ⊆ d₀) →
      ∃ sol, kahnFuel fuel p n = Except.ok sol := by
  intro fuel
  induction fuel with
  | zero =>
    intro p n hlen h1 h2
    cases p with
    | nil => exact ⟨[], rfl⟩
    | cons e rest => simp at hlen
  | succ fuel ih =>
    intro p n hlen h1 h2
    cases p with
    | nil => exact ⟨[], rfl⟩
    | cons e rest =>
      have hsolved : kahnSolved (e :: rest) ≠ [] := by
        have hqsub : ((e :: rest).map Prod.fst).toFinset ∈
            (p₀.map Prod.fst).toFinset.powerset := by
          rw [Finset.mem_powerset]
          intro x hx
          obtain ⟨s, hs⟩ := mem_keys_iff.mp (List.mem_toFinset.mp hx)
          obtain ⟨d₀, hd₀, _⟩ := h2 (x, s) hs
          exact List.mem_toFinset.mpr (mem_keys_iff.mpr ⟨d₀, hd₀⟩)
        have hqne : ((e :: rest).map Prod.fst).toFinset ≠ ∅ :=
          Finset.ne_empty_of_mem
            (List.mem_toFinset.mpr (List.mem_map.mpr ⟨e, List.mem_cons_self e rest, rfl⟩))
        obtain ⟨x, hxq, hx⟩ := hac _ hqsub hqne
        obtain ⟨sx, hsx⟩ := mem_keys_iff.mp (List.mem_toFinset.mp hxq)
        have hsxe : sx = ∅ := by
          by_contra hne
          obtain ⟨d, hd⟩ := Finset.nonempty_iff_ne_empty.mpr hne
          have hdq : d ∈ ((e :: rest).map Prod.fst).toFinset :=
            List.mem_toFinset.mpr (h1 (x, sx) hsx d hd)
          obtain ⟨d₀, hd₀, hsub⟩ := h2 (x, sx) hsx
          exact hx (x, d₀) hd₀ rfl d (hsub hd) hdq
        have hxmem : x ∈ kahnSolved (e :: rest) :=
          List.mem_map.mpr ⟨(x, sx),
            List.mem_filter.mpr ⟨hsx, by simp [hsxe]⟩, rfl⟩
        intro hnil
        rw [hnil] at hxmem
        cases hxmem
      have hlen' : (kahnRest (e :: rest)).length ≤ fuel := by
        have := kahnRest_length_lt (e :: rest) (List.cons_ne_nil e rest) hsolved
        simp only [List.length_cons] at this hlen ⊢
        omega
      have h2' : ∀ e' ∈ kahnRest (e :: rest), ∃ d₀, (e'.1, d₀) ∈ p₀ ∧ e'.2 ⊆ d₀ := by
        intro e' he'
        obtain ⟨e₁, he₁, heq⟩ := List.mem_map.mp he'
        obtain ⟨d₀, hd₀, hsub⟩ := h2 e₁ (List.mem_filter.mp he₁).1
        rw [← heq]
        exact ⟨d₀, hd₀, Finset.Subset.trans (Finset.sdiff_subset) hsub⟩
      obtain ⟨sol', hsol'⟩ := ih (kahnRest (e :: rest)) (n + 1) hlen' (kahnRest_wf h1) h2'
      refine ⟨kahnSolved (e :: rest) ++ sol', ?_⟩
      rw [kahnFuel, if_neg hsolved, hsol']

theorem addDepTo_wf {p : Pending} (hwf : PendingWF p) {t : Finset DKey}
    {dep : DKey} (hdep : dep ∈ p.map Prod.fst) :
    PendingWF (addDepTo p t dep) := by
  intro e' he' d hd
  rw [addDepTo_keys]
  obtain ⟨e₁, he₁, heq⟩ := List.mem_map.mp he'
  by_cases h : e₁.1 ∈ t
  · rw [← heq] at hd
    simp only [h, if_pos] at hd
    rcases Finset.mem_insert.mp hd with rfl | hd'
    · exact hdep
    · exact hwf e₁ he₁ d hd'
  · rw [← heq] at hd
    simp only [h, if_neg, not_false_iff] at hd
    exact hwf e₁ he₁ d hd

theorem updateDeps_wf {p : Pending} (hwf : PendingWF p) {key : DKey}
    {extra : Finset DKey} (hextra : ∀ d ∈ extra, d ∈ p.map Prod.fst) :
    PendingWF (updateDeps p key extra) := by
  intro e' he' d hd
  rw [updateDeps_keys]
  obtain ⟨e₁, he₁, heq⟩ := List.mem_map.mp he'
  by_cases h : e₁.1 = key
  · rw [← heq] at hd
    simp only [h, if_pos] at hd
    rcases Finset.mem_union.mp hd with hd' | hd'
    · exact hwf e₁ he₁ d hd'
    · exact hextra d hd'
  · rw [← heq] at hd
    simp only [h, if_neg, not_false_iff] at hd
    exact hwf e₁ he₁ d hd

theorem validateItem_wf {keys : Finset Nat} {k : Nat} {v : DependencyItem}
    {p p' : Pending} (h : validateItem keys k v p = Except.ok p')
    (hwf : PendingWF p) (hk : DKey.node k ∈ p.map Prod.fst)
    (hkeys : ∀ m ∈ keys, DKey.node m ∈ p.map Prod.fst) :
    PendingWF p' := by
  obtain ⟨heq, _, hreq⟩ := validateItem_ok h
  rw [heq]
  apply updateDeps_wf
  · apply updateDeps_wf
    · apply addDepTo_wf
      · exact addDepTo_wf hwf hk
      · rwa [addDepTo_keys]
    · intro d hd
      rw [addDepTo_keys, addDepTo_keys]
      obtain ⟨m, hm, rfl⟩ := Finset.mem_image.mp hd
      exact hkeys m (Finset.mem_inter.mp hm).2
  · intro d hd
    rw [updateDeps_keys, addDepTo_keys, addDepTo_keys]
    obtain ⟨m, hm, rfl⟩ := Finset.mem_image.mp hd
    exact hkeys m (hreq hm)

theorem buildPendingAux_wf (keys : Finset Nat) :
    ∀ (items : List (Nat × DependencyItem)) (p p' : Pending),
      buildPendingAux keys items p = Except.ok p' →
      PendingWF p →
      (∀ m ∈ keys, DKey.node m ∈ p.map Prod.fst) →
      (∀ kv ∈ items, kv.1 ∈ keys) →
      PendingWF p'
  | [], p, p', h, hwf, _, _ => by
    rw [buildPendingAux] at h
    injection h with h
    rwa [← h]
  | kv :: rest, p, p', h, hwf, hkeys, hitems => by
    rw [buildPendingAux] at h
    split at h
    · cases h
    · rename_i p₁ hv
      refine buildPendingAux_wf keys rest p₁ p' h ?_ ?_ ?_
      · exact validateItem_wf hv hwf
          (hkeys kv.1 (hitems kv (List.mem_cons_self kv rest))) hkeys
      · intro m hm
        rw [validateItem_keys hv]
        exact hkeys m hm
      · intro kv' hkv'
        exact hitems kv' (List.mem_cons_of_mem kv hkv')

theorem pendingWF_append {p : Pending} (hwf : PendingWF p)
    {k : DKey} {s : Finset DKey} (hs : ∀ d ∈ s, d ∈ p.map Prod.fst) :
    PendingWF (p ++ [(k, s)]) := by
  intro e' he' d hd
  rw [List.map_append]
  rcases List.mem_append.mp he' with h | h
  · exact List.mem_append_left _ (hwf e' h d hd)
  · rcases List.mem_singleton.mp h with rfl
    exact List.mem_append_left _ (hs d hd)

theorem goPrio_wf (data : DepData) :
    ∀ (ps : List Int) (prev : Option Int) (p : Pending),
      PendingWF p →
      (∀ m ∈ data.map Prod.fst, DKey.node m ∈ p.map Prod.fst) →
      (∀ q, prev = some q → DKey.prio q ∈ p.map Prod.fst) →
      PendingWF (goPrio data ps prev p)
  | [], prev, p, hwf, _, _ => by
    rw [goPrio]
    exact hwf
  | pr :: rest, prev, p, hwf, hkeys, hprev => by
    have hmembers : ∀ d ∈ nodeSet (groupMembers data pr).toFinset,
        d ∈ p.map Prod.fst := by
      intro d hd
      obtain ⟨m, hm, rfl⟩ := Finset.mem_image.mp hd
      refine hkeys m ?_
      have := List.mem_toFinset.mp hm
      rw [groupMembers] at this
      obtain ⟨kv, hkv, rfl⟩ := List.mem_map.mp this
      exact List.mem_map.mpr ⟨kv, (List.mem_filter.mp hkv).1, rfl⟩
    cases prev with
    | none =>
      rw [show goPrio data (pr :: rest) none p =
          goPrio data rest (some pr)
            (p ++ [(DKey.prio pr, nodeSet (groupMembers data pr).toFinset)]) from rfl]
      refine goPrio_wf data rest (some pr) _ ?_ ?_ ?_
      · exact pendingWF_append hwf hmembers
      · intro m hm
        rw [List.map_append]
        exact List.mem_append_left _ (hkeys m hm)
      · intro q hq
        injection hq with hq
        subst hq
        rw [List.map_append]
        exact List.mem_append_right _ (by simp)
    | some q0 =>
      rw [show goPrio data (pr :: rest) (some q0) p =
          goPrio data rest (some pr)
            (addDepTo p (nodeSet (groupMembers data pr).toFinset) (DKey.prio q0) ++
              [(DKey.prio pr, nodeSet (groupMembers data pr).toFinset)]) from rfl]
      refine goPrio_wf data rest (some pr) _ ?_ ?_ ?_
      · refine pendingWF_append (addDepTo_wf hwf (hprev q0 rfl)) ?_
        intro d hd
        rw [addDepTo_keys]
        exact hmembers d hd
      · intro m hm
        rw [List.map_append, addDepTo_keys]
        exact List.mem_append_left _ (hkeys m hm)
      · intro q hq
        injection hq with hq
        subst hq
        rw [List.map_append]
        exact List.mem_append_right _ (by simp)

theorem addPrioEdges_wf (data : DepData) (p : Pending)
    (hwf : PendingWF p)
    (hkeys : ∀ m ∈ data.map Prod.fst, DKey.node m ∈ p.map Prod.fst) :
    PendingWF (addPrioEdges data p) := by
  rw [addPrioEdges]
  split
  · exact hwf
  · exact goPrio_wf data _ none p hwf hkeys (fun q hq => by cases hq)

theorem initPending_keys (data : DepData) :
    (initPending data).map Prod.fst = data.map (fun kv => DKey.node kv.1) := by
  rw [initPending, List.map_map]
  rfl

theorem buildPending_keys {data : DepData} {pb : Pending}
    (h : buildPending data = Except.ok pb) :
    pb.map Prod.fst = data.map (fun kv => DKey.node kv.1) := by
  rw [buildPendingAux_keys (keysOf data) data (initPending data) pb h,
    initPending_keys]

theorem buildPending_wf {data : DepData} {pb : Pending}
    (h : buildPending data = Except.ok pb) : PendingWF pb := by
  refine buildPendingAux_wf (keysOf data) data (initPending data) pb h ?_ ?_ ?_
  · intro e he d hd
    obtain ⟨kv, _, heq⟩ := List.mem_map.mp he
    rw [← heq] at hd
    cases hd
  · intro m hm
    rw [initPending_keys]
    obtain ⟨x, hx, rfl⟩ := List.mem_map.mp (List.mem_toFinset.mp (by exact hm))
    exact List.mem_map.mpr ⟨x, hx, rfl⟩
  · intro kv hkv
    exact List.mem_toFinset.mpr (List.mem_map.mpr ⟨kv, hkv, rfl⟩)

/-- The reconstruction `(k, self._data[k]) for k in l` of line 515-517,
restricted to keys that exist: it reproduces exactly `l` as key list. -/
theorem out_map_fst (data : DepData) :
    ∀ (l : List Nat), (∀ j ∈ l, j ∈ data.map Prod.fst) →
      ((l.filterMap (fun j => (data.find? (fun kv => kv.1 = j)).map
        (fun kv => (j, kv.2)))).map Prod.fst) = l
  | [], _ => rfl
  | j :: t, hl => by
    have hj : j ∈ data.map Prod.fst := hl j (List.mem_cons_self j t)
    have hfind : ∃ kv, data.find? (fun kv => kv.1 = j) = some kv := by
      obtain ⟨kv, hkv, heq⟩ := List.mem_map.mp hj
      have : (data.find? (fun kv => kv.1 = j)).isSome := by
        rw [List.find?_isSome]
        exact ⟨kv, hkv, by simp [heq]⟩
      exact Option.isSome_iff_exists.mp this
    obtain ⟨kv, hkv⟩ := hfind
    rw [List.filterMap_cons, hkv]
    show (((j, kv.2) :: t.filterMap _).map Prod.fst) = j :: t
    rw [List.map_cons,
      out_map_fst data t (fun x hx => hl x (List.mem_cons_of_mem j hx))]

theorem filterMap_node_keys (data : DepData) :
    (data.map (fun kv => DKey.node kv.1)).filterMap nodeOf = data.map Prod.fst := by
  induction data with
  | nil => rfl
  | cons kv rest ih => simp [nodeOf, ih]

theorem filterMap_prio_keys (ps : List Int) :
    (ps.map DKey.prio).filterMap nodeOf = [] := by
  induction ps with
  | nil => rfl
  | cons pr rest ih => simp [nodeOf, ih]

/-- The node keys of the solution are a permutation of the dictionary keys. -/
theorem sol_filterMap_perm {data : DepData} {pb : Pending} {sol : List DKey}
    (hpb : buildPending data = Except.ok pb)
    (hsol : kahn (addPrioEdges data pb) 0 = Except.ok sol) :
    List.Perm (sol.filterMap nodeOf) (data.map Prod.fst) := by
  rw [kahn] at hsol
  have hperm := kahnFuel_perm _ _ _ _ (le_refl _) hsol
  have h2 := hperm.filterMap nodeOf
  rcases addPrioEdges_keys data pb with hk | hk
  · rw [hk, buildPending_keys hpb, filterMap_node_keys] at h2
    exact h2
  · rw [hk, buildPending_keys hpb, List.filterMap_append, filterMap_node_keys,
      filterMap_prio_keys, List.append_nil] at h2
    exact h2

theorem sol_nodes_sub {data : DepData} {pb : Pending} {sol : List DKey}
    (hpb : buildPending data = Except.ok pb)
    (hsol : kahn (addPrioEdges data pb) 0 = Except.ok sol) :
    ∀ j ∈ sol.filterMap nodeOf, j ∈ data.map Prod.fst :=
  fun j hj => (sol_filterMap_perm hpb hsol).mem_iff.mp hj

/-- After a successful validation, `solve` is the elimination stage. -/
theorem solve_stage_eq {data : DepData} (hne : data ≠ []) {pb : Pending}
    (hpb : buildPending data = Except.ok pb) :
    solve data =
      match kahn (addPrioEdges data pb) 0 with
      | Except.error e => Except.error e
      | Except.ok sol =>
        Except.ok ((sol.filterMap nodeOf).filterMap
          (fun j => (data.find? (fun kv => kv.1 = j)).map (fun kv => (j, kv.2)))) := by
  rw [solve, if_neg hne, hpb]

/-- A successful non-empty `solve`, decomposed into its stages. -/
theorem solve_eq_of_parts {data : DepData} (hne : data ≠ []) {pb : Pending}
    {sol : List DKey} (hpb : buildPending data = Except.ok pb)
    (hsol : kahn (addPrioEdges data pb) 0 = Except.ok sol) :
    solve data = Except.ok ((sol.filterMap nodeOf).filterMap
      (fun j => (data.find? (fun kv => kv.1 = j)).map (fun kv => (j, kv.2)))) := by
  rw [solve_stage_eq hne hpb, hsol]

/-- A successful non-empty `solve`, read backwards. -/
theorem solve_ok_parts {data out : DepData} (hne : data ≠ [])
    (hok : solve data = Except.ok out) :
    ∃ pb sol, buildPending data = Except.ok pb ∧
      kahn (addPrioEdges data pb) 0 = Except.ok sol ∧
      out = (sol.filterMap nodeOf).filterMap
        (fun j => (data.find? (fun kv => kv.1 = j)).map (fun kv => (j, kv.2))) := by
  cases hb : buildPending data with
  | error e =>
    have heq : solve data = Except.error e := by rw [solve, if_neg hne, hb]
    rw [heq] at hok
    cases hok
  | ok pb =>
    have heq := solve_stage_eq hne hb
    cases hk : kahn (addPrioEdges data pb) 0 with
    | error e =>
      have heq2 : solve data = Except.error e := by rw [heq, hk]
      rw [heq2] at hok
      cases hok
    | ok sol =>
      have heq2 : solve data = Except.ok ((sol.filterMap nodeOf).filterMap
          (fun j => (data.find? (fun kv => kv.1 = j)).map (fun kv => (j, kv.2)))) := by
        rw [heq, hk]
      rw [heq2] at hok
      injection hok with hok
      exact ⟨pb, sol, rfl, hk, hok.symm⟩

/-- C10: whenever `solve` succeeds, the output's keys are a permutation of
exactly the keys that were added — none lost, none duplicated — and the
`_DependencyPriority` sentinels synthesized during solving are filtered out
of the rebuilt dictionary (the output draws its entries from the original
data by key lookup). -/
theorem solve_keys_perm (data out : DepData)
    (hnd : (data.map Prod.fst).Nodup)
    (hok : solve data = Except.ok out) :
    List.Perm (out.map Prod.fst) (data.map Prod.fst) ∧
      (out.map Prod.fst).Nodup := by
  by_cases hne : data = []
  · subst hne
    rw [solve, if_pos rfl] at hok
    injection hok with hok
    rw [← hok]
    exact ⟨List.Perm.refl _, List.nodup_nil⟩
  · obtain ⟨pb, sol, hpb, hsol, hout⟩ := solve_ok_parts hne hok
    have hfst : out.map Prod.fst = sol.filterMap nodeOf := by
      rw [hout]
      exact out_map_fst _ _ (sol_nodes_sub hpb hsol)
    rw [hfst]
    have hperm := sol_filterMap_perm hpb hsol
    exact ⟨hperm, (hperm.nodup_iff).mpr hnd⟩

/-- A concrete two-item dictionary — item `0` is `before` item `1` — used to
instantiate the `solve` theorems. -/
def depDataEx : DepData :=
  [(0, { before := {1}, after := ∅, requires := ∅, required_by := ∅,
         priority := 0 }),
   (1, { before := ∅, after := ∅, requires := ∅, required_by := ∅,
         priority := 0 })]

/-- Witness for C10 at `depDataEx`. -/
theorem solve_keys_perm_witness :
    List.Perm ((depDataEx.map Prod.fst) : List Nat) [0, 1] ∧
      ((depDataEx.map Prod.fst) : List Nat).Nodup := by
  have h := solve_keys_perm depDataEx depDataEx (by decide) rfl
  exact ⟨h.1, h.2⟩

/-- C5: for an acyclic `DependencyDict` (no cycle in the dependency table
`solve` constructs, priority-group edges included) that passes validation,
`solve` produces an order of all items in which every existing
`before`-target of an item appears later than the item and every existing
`after`-target appears earlier.  (With `solve_keys_perm`, the output keys are
moreover duplicate-free, so `Precedes` is exactly "appears earlier".) -/
theorem solve_topological_order (data : DepData)
    (hnd : (data.map Prod.fst).Nodup)
    (pb : Pending) (hpb : buildPending data = Except.ok pb)
    (hac : AcyclicPending (addPrioEdges data pb)) :
    ∃ out, solve data = Except.ok out ∧
      ∀ k v, (k, v) ∈ data →
        (∀ j ∈ v.before, j ∈ keysOf data → Precedes (out.map Prod.fst) k j) ∧
        (∀ j ∈ v.after, j ∈ keysOf data → Precedes (out.map Prod.fst) j k) := by
  by_cases hne : data = []
  · subst hne
    exact ⟨[], rfl, fun k v hin => absurd hin (List.not_mem_nil _)⟩
  · have hwfpb : PendingWF pb := buildPending_wf hpb
    have hkeyspb : ∀ m ∈ data.map Prod.fst, DKey.node m ∈ pb.map Prod.fst := by
      intro m hm
      rw [buildPending_keys hpb]
      obtain ⟨kv, hkv, rfl⟩ := List.mem_map.mp hm
      exact List.mem_map.mpr ⟨kv, hkv, rfl⟩
    have hwf : PendingWF (addPrioEdges data pb) :=
      addPrioEdges_wf data pb hwfpb hkeyspb
    obtain ⟨sol, hsol⟩ :=
      kahnFuel_succeeds (addPrioEdges data pb) hac
        (addPrioEdges data pb).length (addPrioEdges data pb) 0 (le_refl _) hwf
        (fun e he => ⟨e.2, by rwa [Prod.mk.eta], Finset.Subset.refl _⟩)
    have hsolk : kahn (addPrioEdges data pb) 0 = Except.ok sol := by
      rw [kahn]
      exact hsol
    refine ⟨_, solve_eq_of_parts hne hpb hsolk, ?_⟩
    have hfst : (((sol.filterMap nodeOf).filterMap
        (fun j => (data.find? (fun kv => kv.1 = j)).map
          (fun kv => (j, kv.2)))).map Prod.fst) = sol.filterMap nodeOf :=
      out_map_fst _ _ (sol_nodes_sub hpb hsolk)
    intro k v hin
    have hkdata : k ∈ data.map Prod.fst := List.mem_map.mpr ⟨(k, v), hin, rfl⟩
    have hkpf : DKey.node k ∈ (addPrioEdges data pb).map Prod.fst := by
      obtain ⟨s', hs', _⟩ :=
        addPrioEdges_mono data pb (DKey.node k) _
          (mem_keys_iff.mp (hkeyspb k hkdata)).choose_spec
      exact mem_keys_iff.mpr ⟨s', hs'⟩
    constructor
    · intro j hj hjk
      have hjdata : j ∈ data.map Prod.fst := List.mem_toFinset.mp hjk
      have hjinit : DKey.node j ∈ (initPending data).map Prod.fst := by
        rw [initPending_keys]
        obtain ⟨kv, hkv, rfl⟩ := List.mem_map.mp hjdata
        exact List.mem_map.mpr ⟨kv, hkv, rfl⟩
      obtain ⟨s, hs, hks⟩ :=
        buildPendingAux_before_edge (keysOf data) data (initPending data) pb
          hpb k v hin j hj hjk hjinit
      obtain ⟨s', hs', hsub⟩ := addPrioEdges_mono data pb _ _ hs
      have hprec := kahnFuel_precedes (addPrioEdges data pb).length
        (addPrioEdges data pb) 0 sol (le_refl _) hsol
        (DKey.node j) s' hs' (DKey.node k) (hsub hks) hkpf
      rw [hfst]
      exact hprec.filterMap nodeOf rfl rfl
    · intro j hj hjk
      have hkinit : DKey.node k ∈ (initPending data).map Prod.fst := by
        rw [initPending_keys]
        obtain ⟨kv, hkv, rfl⟩ := List.mem_map.mp hkdata
        exact List.mem_map.mpr ⟨kv, hkv, rfl⟩
      obtain ⟨s, hs, hjs⟩ :=
        buildPendingAux_after_edge (keysOf data) data (initPending data) pb
          hpb k v hin j hj hjk hkinit
      obtain ⟨s', hs', hsub⟩ := addPrioEdges_mono data pb _ _ hs
      have hjpf : DKey.node j ∈ (addPrioEdges data pb).map Prod.fst := by
        have hjdata : j ∈ data.map Prod.fst := List.mem_toFinset.mp hjk
        obtain ⟨s₀, hs₀⟩ := mem_keys_iff.mp (hkeyspb j hjdata)
        obtain ⟨s₁, hs₁, _⟩ := addPrioEdges_mono data pb _ _ hs₀
        exact mem_keys_iff.mpr ⟨s₁, hs₁⟩
      have hprec := kahnFuel_precedes (addPrioEdges data pb).length
        (addPrioEdges data pb) 0 sol (le_refl _) hsol
        (DKey.node k) s' hs' (DKey.node j) (hsub hjs) hjpf
      rw [hfst]
      exact hprec.filterMap nodeOf rfl rfl

/-- Witness for C5 at `depDataEx`: its pending table is
`[(node 0, ∅), (node 1, {node 0})]`, acyclic, and the produced order is
`[0, 1]`. -/
theorem solve_topological_order_witness :
    ∃ out, solve depDataEx = Except.ok out ∧
      ∀ k v, (k, v) ∈ depDataEx →
        (∀ j ∈ v.before, j ∈ keysOf depDataEx →
          Precedes (out.map Prod.fst) k j) ∧
        (∀ j ∈ v.after, j ∈ keysOf depDataEx →
          Precedes (out.map Prod.fst) j k) :=
  solve_topological_order depDataEx (by decide)
    [(DKey.node 0, ∅), (DKey.node 1, {DKey.node 0})] rfl (by decide)

end IrcBot
